import Mathlib

/-!
Shallow embedding of the gzdec repository (driverfury/gzdec), two-function
variant from src/gzdec.h: an in-memory GZIP (RFC 1952) / DEFLATE (RFC 1951)
decompressor.

Modelling conventions:
  - byte buffers are `List Nat` with every entry < 256; `insize` is the
    list length (the C pointer+size pair denotes exactly those bytes);
  - C `unsigned int` arithmetic is Nat with explicit `% 2 ^ 32` or an
    explicit complement where overflow matters; values that stay far below
    2 ^ 31 are plain Nat;
  - the pointer-linked Huffman node array (`gz_huffn`) is an inductive
    binary tree; a NULL child pointer is the `nil` constructor; the
    `huffcount`/`htmax` allocation counter of the node array is threaded
    explicitly;
  - functions that can fail (C functions returning 0 / -1 for failure)
    return `Option`;
  - the two unbounded C loops (the zero-terminated FNAME/FCOMMENT skip and
    the DEFLATE block loop) take an explicit fuel argument and return
    `none` when it runs out; every other loop is bounded by its C bound;
  - the back-reference copy in gzdec reads `*backp` where `backp` may point
    below the start of the output buffer (the bound check in the source
    compares `outp`, not `backp`, against `out`); the byte found at
    `out[-1-k]` is modelled by an explicit parameter `below k`, so an
    out-of-bounds read is visible as a dependence of the result on `below`.
-/

namespace Gzdec

/-- Result codes of `enum gz_result` in src/gzdec.h. -/
inductive GzResult where
  | GZ_OK : GzResult
  | GZ_INVMAGIC : GzResult
  | GZ_INVCMETHOD : GzResult
  | GZ_INVFILE : GzResult
  | GZ_NOSPACE : GzResult
deriving DecidableEq

/-- The bit stream `gz_bstream`: `src` is the input byte buffer,
`pos` the offset of `ptr` from `src` (index of the next byte to load into
`buf`), `buf` the current byte, `mask` the current bit mask (1,2,4,...,128,
an `unsigned char`), `endf` the `end` flag. -/
structure Bstream where
  src : List Nat
  pos : Nat
  buf : Nat
  mask : Nat
  endf : Bool
deriving DecidableEq

/-- `gz_nextbit`: return the bit selected by `mask` in `buf` and advance;
on wrap-around of the 8-bit mask, load the next byte or set the end flag.
After the end flag is set every call returns 0 and leaves the state alone. -/
def gz_nextbit (s : Bstream) : Nat × Bstream :=
  if s.endf then (0, s)
  else
    let bit := if s.buf &&& s.mask ≠ 0 then 1 else 0
    let mask1 := (s.mask <<< 1) % 256
    if mask1 = 0 then
      if s.pos < s.src.length then
        (bit, { s with mask := 1, buf := s.src.getD s.pos 0, pos := s.pos + 1 })
      else
        (bit, { s with mask := 1, endf := true })
    else
      (bit, { s with mask := mask1 })

/-- `gz_readbits`: accumulate `count` bits, the first bit read landing in
bit position 0 (`bitsval |= bit << i` with `i` ascending). -/
def gz_readbits : Bstream → Nat → Nat × Bstream
  | s, 0 => (0, s)
  | s, n + 1 =>
    let p := gz_nextbit s
    let q := gz_readbits p.2 n
    (p.1 + 2 * q.1, q.2)

/-- The Huffman node `gz_huffn`: a node holds `code` (-1 for a non-leaf)
and the `zero`/`one` children; `nil` stands for a NULL child pointer. -/
inductive Huffn where
  | nil : Huffn
  | node : Int → Huffn → Huffn → Huffn
deriving DecidableEq

/-- Inner loop of `gz_huffdec`, entered at a non-leaf node: read one bit,
step to the corresponding child; a NULL child exits with -1, a leaf child
returns its code, a non-leaf child continues. -/
def gz_huffdecGo : Huffn → Bstream → Int × Bstream
  | .nil, s => (-1, s)
  | .node _ z o, s =>
    let p := gz_readbits s 1
    if p.1 ≠ 0 then
      match o with
      | .nil => (-1, p.2)
      | .node c _ _ => if 0 ≤ c then (c, p.2) else gz_huffdecGo o p.2
    else
      match z with
      | .nil => (-1, p.2)
      | .node c _ _ => if 0 ≤ c then (c, p.2) else gz_huffdecGo z p.2

/-- `gz_huffdec`: walk the tree from the root. A NULL root or a root that
is itself a leaf falls through the `while` guard and returns -1. -/
def gz_huffdec (t : Huffn) (s : Bstream) : Int × Bstream :=
  match t with
  | .nil => (-1, s)
  | .node c _ _ => if 0 ≤ c then (-1, s) else gz_huffdecGo t s

/-- `gz_lentable`: length bases for codes 265..284. -/
def gz_lentable : List Nat :=
  [11, 13, 15, 17, 19, 23, 27, 31, 35, 43, 51, 59, 67, 83,
   99, 115, 131, 163, 195, 227]

/-- `gz_getlen`: map a literal/length code 257..285 to a match length,
reading `(code - 261) / 4` extra bits for codes 265..284. -/
def gz_getlen (code : Int) (s : Bstream) : Int × Bstream :=
  if code < 257 ∨ code > 285 then (-1, s)
  else if code = 285 then (258, s)
  else if code < 265 then (code - 254, s)
  else
    let p := gz_readbits s ((code - 261) / 4).toNat
    ((p.1 : Int) + (gz_lentable.getD (code - 265).toNat 0 : Nat), p.2)

/-- `gz_disttable`: distance bases (minus one) for codes 4..29. -/
def gz_disttable : List Nat :=
  [4, 6, 8, 12, 16, 24, 32, 48, 64, 96, 128, 192, 256, 384,
   512, 768, 1024, 1536, 2048, 3072, 4096, 6144, 8192,
   12288, 16384, 24576]

/-- `gz_getdist`: map a distance code 0..29 to a distance, reading
`(code - 2) / 2` extra bits for codes 4..29; anything outside 0..29
(including the reserved codes 30 and 31) yields -1. -/
def gz_getdist (code : Int) (s : Bstream) : Int × Bstream :=
  if code < 0 ∨ code > 29 then (-1, s)
  else if code < 4 then (code + 1, s)
  else
    let p := gz_readbits s ((code - 2) / 2).toNat
    ((p.1 : Int) + (gz_disttable.getD (code - 4).toNat 0 : Nat) + 1, p.2)

/-- Loop body of `gz_torange`: `prev` is `cl[i-1]`, `e` the end index
recorded for the current range (always `i - 1`), `j` the index of the
current range, `rmax` the capacity check bound. Emits the `(end, blen)`
pairs in order. Returns `none` where the C code returns -1. -/
def gz_torangeGo : Nat → Nat → Nat → Nat → Nat → List Nat → Option (List (Nat × Nat))
  | prev, e, _, _, _, [] => some [(e, prev)]
  | prev, e, i, j, rmax, c :: rest =>
    if c = prev then gz_torangeGo prev i (i + 1) j rmax rest
    else if j + 1 ≥ rmax then none
    else
      match gz_torangeGo c i (i + 1) (j + 1) rmax rest with
      | none => none
      | some rs => some ((e, prev) :: rs)

/-- `gz_torange`: run-length encode the code-length vector into ranges of
equal value, each recorded as `(last index, value)`. An empty vector
performs no iteration and reports one (zero-initialized) range. -/
def gz_torange (cl : List Nat) (rmax : Nat) : Option (List (Nat × Nat)) :=
  match cl with
  | [] => some [(0, 0)]
  | c :: rest => if 0 ≥ rmax then none else gz_torangeGo c 0 1 0 rmax rest

/-- Maximum `blen` over the ranges (the `maxblen` loop of `gz_buildht`). -/
def gz_maxblen (rs : List (Nat × Nat)) : Nat :=
  rs.foldl (fun m r => max m r.2) 0

/-- The `blcount` loop of `gz_buildht`: each range adds its length
(`end - previous end`, with previous end -1 for the first range) to the
counter of its `blen`. `acc` has `maxblen + 1` entries. -/
def gz_blcountGo : List (Nat × Nat) → Int → List Nat → List Nat
  | [], _, acc => acc
  | (e, b) :: rs, prev, acc =>
    gz_blcountGo rs (e : Int) (acc.set b (acc.getD b 0 + ((e : Int) - prev).toNat))

def gz_blcount (rs : List (Nat × Nat)) (maxblen : Nat) : List Nat :=
  gz_blcountGo rs (-1) (List.replicate (maxblen + 1) 0)

/-- The `nxtcode` loop of `gz_buildht`: `code` accumulates
`(code + blcount[bits-1]) << 1` for `bits = 1 .. maxblen`, and
`nxtcode[bits]` is set to it only when `blcount[bits]` is nonzero
(entries for unused lengths keep their zeroed value). `n` counts the
remaining iterations (`maxblen + 1 - bits`). -/
def gz_nxtcodeGo (blc : List Nat) : Nat → Nat → Nat → List Nat → List Nat
  | 0, _, _, acc => acc
  | n + 1, bits, code, acc =>
    let code1 := (code + blc.getD (bits - 1) 0) * 2
    let acc1 := if blc.getD bits 0 ≠ 0 then acc.set bits code1 else acc
    gz_nxtcodeGo blc n (bits + 1) code1 acc1

def gz_nxtcode (blc : List Nat) (maxblen : Nat) : List Nat :=
  gz_nxtcodeGo blc maxblen 1 0 (List.replicate (maxblen + 1) 0)

/-- One range of the `tree`-filling loop of `gz_buildht`: `k` symbols in a
row share bit length `b`; each nonzero-length symbol receives the current
`nxtcode[b]`, which is then incremented; a zero-length symbol keeps the
zeroed node `(0, 0)`. The C loop walks the symbol index `i` with
`actrange` selecting the range containing `i`, which visits exactly the
members of each range in order. -/
def gz_assignRun : Nat → Nat → List Nat → List (Nat × Nat) → List Nat × List (Nat × Nat)
  | 0, _, nxt, acc => (nxt, acc)
  | k + 1, b, nxt, acc =>
    if b = 0 then gz_assignRun k b nxt (acc ++ [(0, 0)])
    else gz_assignRun k b (nxt.set b (nxt.getD b 0 + 1)) (acc ++ [(b, nxt.getD b 0)])

def gz_assignGo : List (Nat × Nat) → Int → List Nat → List (Nat × Nat) → List (Nat × Nat)
  | [], _, _, acc => acc
  | (e, b) :: rs, prev, nxt, acc =>
    let p := gz_assignRun ((e : Int) - prev).toNat b nxt acc
    gz_assignGo rs (e : Int) p.1 p.2

/-- The per-symbol `(blen, code)` table (`gz_tnode tree[]`). -/
def gz_tree (rs : List (Nat × Nat)) (nxt : List Nat) : List (Nat × Nat) :=
  gz_assignGo rs (-1) nxt []

/-- The bit path used when inserting a code of length `blen`: the loop
`for (bits = blen; bits > 0; --bits)` tests `code & (1 << (bits - 1))`,
i.e. bits `blen - 1` down to `0` of `code`, most significant first. -/
def gz_pathBits (blen code : Nat) : List Bool :=
  (List.range blen).reverse.map (fun k => code.testBit k)

/-- Insert symbol `sym` at bit path `path` below node `t`, mirroring the
tree-building loop of `gz_buildht`: a missing child is allocated (with
`code = -1`) if the node counter `hc` is still below `htmax`; at the end
of the path the node's code must still be -1 and becomes `sym`. Returns
the new tree and node counter, or `none` where the C code returns 0. -/
def gz_insert : Huffn → List Bool → Nat → Nat → Nat → Option (Huffn × Nat)
  | .nil, _, _, _, _ => none
  | .node c z o, [], sym, hc, _ =>
    if c = -1 then some (.node (Int.ofNat sym) z o, hc) else none
  | .node c z o, bb :: rest, sym, hc, htmax =>
    if bb then
      match o with
      | .nil =>
        if hc ≥ htmax then none
        else
          match gz_insert (.node (-1) .nil .nil) rest sym (hc + 1) htmax with
          | none => none
          | some (o1, hc1) => some (.node c z o1, hc1)
      | .node c2 z2 o2 =>
        match gz_insert (.node c2 z2 o2) rest sym hc htmax with
        | none => none
        | some (o1, hc1) => some (.node c z o1, hc1)
    else
      match z with
      | .nil =>
        if hc ≥ htmax then none
        else
          match gz_insert (.node (-1) .nil .nil) rest sym (hc + 1) htmax with
          | none => none
          | some (z1, hc1) => some (.node c z1 o, hc1)
      | .node c2 z2 o2 =>
        match gz_insert (.node c2 z2 o2) rest sym hc htmax with
        | none => none
        | some (z1, hc1) => some (.node c z1 o, hc1)

/-- The final loop of `gz_buildht`: insert every symbol `i` with nonzero
bit length at the path given by its assigned code. -/
def gz_insertAll : List (Nat × Nat) → Nat → Huffn → Nat → Nat → Option (Huffn × Nat)
  | [], _, t, hc, _ => some (t, hc)
  | (blen, code) :: rest, i, t, hc, htmax =>
    if blen ≠ 0 then
      match gz_insert t (gz_pathBits blen code) i hc htmax with
      | none => none
      | some (t1, hc1) => gz_insertAll rest (i + 1) t1 hc1 htmax
    else gz_insertAll rest (i + 1) t hc htmax

/-- `gz_buildht`: build the Huffman decoding tree for code-length vector
`cl` (of `count = cl.length` symbols) into a node array of capacity
`htmax`. The scratch arrays are the (always non-NULL) file-scope arrays of
src/gzdec.h, so the NULL checks of the source are vacuous; the root is
allocated unconditionally (`huffcount` starts at 1, root code -1). `none`
is the C return value 0, `some t` the return value 1 with `ht` filled. -/
def gz_buildht (cl : List Nat) (htmax : Nat) : Option Huffn :=
  if cl.length > 288 then none
  else
    match gz_torange cl cl.length with
    | none => none
    | some rs =>
      let maxblen := gz_maxblen rs
      if maxblen + 1 > 30 then none
      else if (rs.getLastD (0, 0)).1 + 1 > 288 then none
      else
        let blc := gz_blcount rs maxblen
        let nxt := gz_nxtcode blc maxblen
        let tnodes := gz_tree rs nxt
        match gz_insertAll tnodes 0 (.node (-1) .nil .nil) 1 htmax with
        | none => none
        | some (t, _) => some t

/-- `lengths[i++] = val` repeated `r` times (the `while (rep > 0)` loop of
`gz_gethufft`); `List.set` ignores indices past the end, which matches
dropping the out-of-range stores (the loop exit then reports failure via
the `i != count` check, as in the source). -/
def gz_setRun : List Nat → Nat → Nat → Nat → List Nat
  | lens, _, _, 0 => lens
  | lens, i, v, r + 1 => gz_setRun (lens.set i v) (i + 1) v r

/-- The `while (i < count)` loop of `gz_gethufft`: decode one CL symbol
and expand it into `rep` copies of `val`. Returns the stream, the filled
vector and the final `i`; `none` where the C code returns 0. -/
def gz_gethufftGo (htclen : Huffn) (count : Nat) :
    Bstream → List Nat → Nat → Option (Bstream × List Nat × Nat)
  | s, lens, i =>
    if h : i < count then
      let p := gz_huffdec htclen s
      let sym := p.1
      let s1 := p.2
      if sym < 0 ∨ sym > 18 then none
      else if sym ≤ 15 then
        gz_gethufftGo htclen count s1 (gz_setRun lens i sym.toNat 1) (i + 1)
      else if sym = 16 then
        if i = 0 then none
        else
          let q := gz_readbits s1 2
          gz_gethufftGo htclen count q.2 (gz_setRun lens i (lens.getD (i - 1) 0) (3 + q.1)) (i + (3 + q.1))
      else if sym = 17 then
        let q := gz_readbits s1 3
        gz_gethufftGo htclen count q.2 (gz_setRun lens i 0 (3 + q.1)) (i + (3 + q.1))
      else
        let q := gz_readbits s1 7
        gz_gethufftGo htclen count q.2 (gz_setRun lens i 0 (11 + q.1)) (i + (11 + q.1))
    else some (s, lens, i)
  termination_by _ _ i => count - i
  decreasing_by all_goals omega

/-- `gz_gethufft`: zero `maxcount` length entries, decode `count` of them
through the CL tree `htclen`, then build the Huffman tree over the full
`maxcount`-entry vector. Returns the tree and the advanced stream. -/
def gz_gethufft (s : Bstream) (count maxcount : Nat) (htclen : Huffn)
    (htmax : Nat) : Option (Huffn × Bstream) :=
  match gz_gethufftGo htclen count s (List.replicate maxcount 0) 0 with
  | none => none
  | some (s1, lens, i) =>
    if i ≠ count then none
    else
      match gz_buildht lens htmax with
      | none => none
      | some t => some (t, s1)

/-- The `EMIT(b)` macro: fail (GZ_INVFILE in the caller) when the output
cursor has reached `outend = out + outsize`, otherwise append the low
byte. -/
def gz_emit (out : List Nat) (outsize b : Nat) : Option (List Nat) :=
  if out.length ≥ outsize then none else some (out ++ [b % 256])

/-- One byte of the back-reference copy: the source reads `*backp` with
`backp = outp - dist + j` while having emitted `out.length` bytes, i.e.
index `out.length - dist` of the output buffer at each step; when
`dist > out.length` this dereference lies below the buffer and yields the
ambient byte `below (dist - out.length - 1)`. -/
def gz_backByte (below : Nat → Nat) (out : List Nat) (dist : Nat) : Nat :=
  if out.length < dist then below (dist - out.length - 1)
  else out.getD (out.length - dist) 0

/-- The `while (len > 0)` copy loop: emit `len` bytes read `dist` bytes
behind the cursor (each iteration advances both ends, so overlapping
copies re-read freshly written bytes). Returns `(false, partial)` when an
`EMIT` fails. -/
def gz_copyGo (below : Nat → Nat) : Nat → Nat → List Nat → Nat → Bool × List Nat
  | 0, _, out, _ => (true, out)
  | len + 1, dist, out, outsize =>
    match gz_emit out outsize (gz_backByte below out dist) with
    | none => (false, out)
    | some out1 => gz_copyGo below len dist out1 outsize

/-- The stored-block literal loop `while (b0len > 0) EMIT(readbits 8)`. -/
def gz_storedGo : Nat → Bstream → List Nat → Nat → Bool × Bstream × List Nat
  | 0, s, out, _ => (true, s, out)
  | n + 1, s, out, outsize =>
    let p := gz_readbits s 8
    match gz_emit out outsize p.1 with
    | none => (false, p.2, out)
    | some out1 => gz_storedGo n p.2 out1 outsize

/-- Bitwise complement of an `unsigned int` holding `v < 2 ^ 32`
(`~b0nlen` in the stored-block check). -/
def gz_not32 (v : Nat) : Nat := (2 ^ 32 - 1) - v

/-- Fixed literal/length code lengths (BTYPE = 1): 0..143 ↦ 8,
144..255 ↦ 9, 256..279 ↦ 7, 280..287 ↦ 8. -/
def gz_fixedLL : List Nat :=
  List.replicate 144 8 ++ List.replicate 112 9 ++
  List.replicate 24 7 ++ List.replicate 8 8

/-- Fixed distance code lengths: 5 for all 32 symbols. -/
def gz_fixedDist : List Nat := List.replicate 32 5

/-- The BTYPE = 1 literal/length tree: the source fills `arrll` with the
fixed lengths and calls `gz_buildht(arrll, LLLEN, htll, GZ_HTLL_MAX)`;
the result is the same constant tree on every execution. -/
def gz_htllFixed : Option Huffn := gz_buildht gz_fixedLL 575

/-- The BTYPE = 1 distance tree (`gz_buildht(arrdist, DISTLEN, htdist,
GZ_HTDIST_MAX)`). -/
def gz_htdistFixed : Option Huffn := gz_buildht gz_fixedDist 63

/-- The CL symbol permutation `clenord`. -/
def gz_clenord : List Nat :=
  [16, 17, 18, 0, 8, 7, 9, 6, 10, 5, 11, 4, 12, 3, 13, 2, 14, 1, 15]

/-- The dynamic-block loop `arrclen[clenord[i]] = readbits 3` for
`i = 0 .. hclen + 3`; `n` counts remaining iterations. -/
def gz_readClenGo : Nat → Nat → List Nat → Bstream → List Nat × Bstream
  | 0, _, arr, s => (arr, s)
  | n + 1, i, arr, s =>
    let p := gz_readbits s 3
    gz_readClenGo n (i + 1) (arr.set (gz_clenord.getD i 0) p.1) p.2

/-- The `while (sym != 256)` body loop shared by BTYPE 1 and 2. The
result is `none` when fuel runs out; `some (some r, s, out)` models an
early `return r` from gzdec; `some (none, s, out)` is the `sym == 256`
exit (end of block). -/
def gz_body (below : Nat → Nat) :
    Nat → Huffn → Huffn → Bstream → List Nat → Nat →
    Option (Option GzResult × Bstream × List Nat)
  | 0, _, _, _, _, _ => none
  | fuel + 1, htll, htdist, s, out, outsize =>
    let p := gz_huffdec htll s
    let sym := p.1
    let s1 := p.2
    if sym = 256 then some (none, s1, out)
    else if sym < 0 ∨ sym > 288 then some (some .GZ_INVFILE, s1, out)
    else if sym ≤ 255 then
      match gz_emit out outsize sym.toNat with
      | none => some (some .GZ_INVFILE, s1, out)
      | some out1 => gz_body below fuel htll htdist s1 out1 outsize
    else if sym < 288 then
      let pl := gz_getlen sym s1
      let pd := gz_huffdec htdist pl.2
      let pe := gz_getdist pd.1 pd.2
      let len := pl.1
      let dist := pe.1
      let s4 := pe.2
      if dist < 0 ∨ len ≤ 0 then some (some .GZ_INVFILE, s4, out)
      else
        -- The source computes backp = outp - dist and then guards
        -- `if (outp < out)`, a comparison that is always false (the slip
        -- is that backp was meant); no back-reference bound is enforced.
        match gz_copyGo below len.toNat dist.toNat out outsize with
        | (false, out1) => some (some .GZ_INVFILE, s4, out1)
        | (true, out1) => gz_body below fuel htll htdist s4 out1 outsize
    else some (some .GZ_INVFILE, s1, out)

/-- The BTYPE = 0 branch of the block loop: read LEN and NLEN as 8-bit
fields (the source does not byte-align and reads only 8 bits each),
compare LEN with the 32-bit complement of NLEN, then emit LEN literal
bytes. The first component is `some r` for an early `return r`. -/
def gz_storedBlock (s2 : Bstream) (out : List Nat) (outsize : Nat) :
    Option GzResult × Bstream × List Nat :=
  let p3 := gz_readbits s2 8
  let p4 := gz_readbits p3.2 8
  if p3.1 ≠ gz_not32 p4.1 then (some .GZ_INVFILE, p4.2, out)
  else
    match gz_storedGo p3.1 p4.2 out outsize with
    | (false, s5, out1) => (some .GZ_INVFILE, s5, out1)
    | (true, s5, out1) => (none, s5, out1)

/-- The table-construction part of the BTYPE = 2 branch: read HLIT,
HDIST, HCLEN, the permuted 3-bit CL code lengths, build the CL tree and
decode both code-length vectors into trees. `none` covers every path on
which gzdec returns GZ_INVFILE. -/
def gz_dynTrees (s2 : Bstream) : Option (Huffn × Huffn × Bstream) :=
  let ph := gz_readbits s2 5
  let pd := gz_readbits ph.2 5
  let pc := gz_readbits pd.2 4
  if 257 + ph.1 > 288 then none
  else
    let pcl := gz_readClenGo (pc.1 + 4) 0 (List.replicate 19 0) pc.2
    match gz_buildht pcl.1 37 with
    | none => none
    | some htclen =>
      match gz_gethufft pcl.2 (257 + ph.1) 288 htclen 575 with
      | none => none
      | some (htll, s3) =>
        match gz_gethufft s3 (1 + pd.1) 32 htclen 63 with
        | none => none
        | some (htdist, s4) => some (htll, htdist, s4)

/-- One iteration of the `while (!islast)` loop of gzdec: read BFINAL and
BTYPE, process one block, and on normal completion either finish with
GZ_OK (BFINAL set) or continue via `rec`, the remainder of the loop. -/
def gz_blockStep (below : Nat → Nat) (fuel : Nat)
    (rec : Bstream → List Nat → Nat → Option (GzResult × List Nat))
    (s : Bstream) (out : List Nat) (outsize : Nat) :
    Option (GzResult × List Nat) :=
  let p1 := gz_readbits s 1
  let islast := p1.1
  let p2 := gz_readbits p1.2 2
  let btype := p2.1
  let s2 := p2.2
  if btype = 0 then
    match gz_storedBlock s2 out outsize with
    | (some r, _, out1) => some (r, out1)
    | (none, s5, out1) =>
      if islast ≠ 0 then some (.GZ_OK, out1)
      else rec s5 out1 outsize
  else if btype = 1 then
    match gz_htllFixed with
    | none => some (.GZ_INVFILE, out)
    | some htll =>
      match gz_htdistFixed with
      | none => some (.GZ_INVFILE, out)
      | some htdist =>
        match gz_body below fuel htll htdist s2 out outsize with
        | none => none
        | some (some r, _, out1) => some (r, out1)
        | some (none, s3, out1) =>
          if islast ≠ 0 then some (.GZ_OK, out1)
          else rec s3 out1 outsize
  else if btype = 2 then
    match gz_dynTrees s2 with
    | none => some (.GZ_INVFILE, out)
    | some (htll, htdist, s4) =>
      match gz_body below fuel htll htdist s4 out outsize with
      | none => none
      | some (some r, _, out1) => some (r, out1)
      | some (none, s5, out1) =>
        if islast ≠ 0 then some (.GZ_OK, out1)
        else rec s5 out1 outsize
  else some (.GZ_INVFILE, out)

/-- The `while (!islast)` block loop of gzdec. `none` is fuel exhaustion;
otherwise the pair is gzdec's return value and the bytes written. -/
def gz_blocks (below : Nat → Nat) :
    Nat → Bstream → List Nat → Nat → Option (GzResult × List Nat)
  | 0, _, _, _ => none
  | fuel + 1, s, out, outsize =>
    gz_blockStep below fuel (gz_blocks below fuel) s out outsize

/-- Skip `n` whole bytes by discarding `readbits 8` results. -/
def gz_skipBytes : Nat → Bstream → Bstream
  | 0, s => s
  | n + 1, s => gz_skipBytes n (gz_readbits s 8).2

/-- The FNAME/FCOMMENT skip: `i = readbits 8; while (i) i = readbits 8`. -/
def gz_skipZT : Nat → Bstream → Option Bstream
  | 0, _ => none
  | fuel + 1, s =>
    let p := gz_readbits s 8
    if p.1 = 0 then some p.2 else gz_skipZT fuel p.2

/-- `gzdecsize`: the little-endian 32-bit value in the last 4 input bytes
(the GZIP ISIZE trailer field); 0 when fewer than 18 bytes are given.
(The `in == NULL` case of the C code has no counterpart: a buffer is
always a list here.) -/
def gzdecsize (bytes : List Nat) : Nat :=
  if bytes.length < 18 then 0
  else
    bytes.getD (bytes.length - 4) 0 +
    bytes.getD (bytes.length - 3) 0 * 256 +
    bytes.getD (bytes.length - 2) 0 * 65536 +
    bytes.getD (bytes.length - 1) 0 * 16777216

/-- `gzdec`: decode the GZIP member in `bytes` (`insize = bytes.length`)
into an output region of `outsize` bytes. `below k` is the ambient byte
located `k + 1` positions below the start of the output buffer (read only
by an out-of-bounds back-reference). The result is gzdec's return code
together with the bytes written, or `none` if `fuel` is exhausted. -/
def gzdec (below : Nat → Nat) (fuel : Nat) (bytes : List Nat)
    (outsize : Nat) : Option (GzResult × List Nat) :=
  if bytes.length < 18 then some (.GZ_INVFILE, [])
  else
    let isz := gzdecsize bytes
    if isz = 0 then some (.GZ_INVFILE, [])
    else if outsize < isz then some (.GZ_NOSPACE, [])
    else
      let s0 : Bstream :=
        { src := bytes, pos := 1, buf := bytes.getD 0 0, mask := 1, endf := false }
      let pm0 := gz_readbits s0 8
      let pm1 := gz_readbits pm0.2 8
      if pm0.1 ≠ 0x1f ∨ pm1.1 ≠ 0x8b then some (.GZ_INVMAGIC, [])
      else
        let pcm := gz_readbits pm1.2 8
        if pcm.1 ≠ 8 then some (.GZ_INVCMETHOD, [])
        else
          let pfl := gz_readbits pcm.2 8
          let flags := pfl.1
          let s5 := gz_skipBytes 6 pfl.2
          let s6 :=
            if flags &&& 4 ≠ 0 then
              let px := gz_readbits s5 16
              gz_skipBytes px.1 px.2
            else s5
          match (if flags &&& 8 ≠ 0 then gz_skipZT fuel s6 else some s6) with
          | none => none
          | some s7 =>
            match (if flags &&& 16 ≠ 0 then gz_skipZT fuel s7 else some s7) with
            | none => none
            | some s8 =>
              let s9 := if flags &&& 2 ≠ 0 then (gz_readbits s8 16).2 else s8
              gz_blocks below fuel s9 [] outsize

/-! ### Specification-side definitions

The following definitions are taken from the specification's words (and
RFC 1951/1952, which the specification cites), not from src/gzdec.h; they
are compared against the source embedding above. -/

/-- One byte step of CRC-32 (RFC 1952), bitwise with the reflected
polynomial 0xEDB88320. -/
def crc32Byte (c : Nat) : Nat → Nat
  | 0 => c
  | n + 1 => crc32Byte (if c % 2 = 1 then (c / 2) ^^^ 0xEDB88320 else c / 2) n

/-- CRC-32 of a byte list (RFC 1952). Used only to exhibit inputs that are
valid GZIP members including their CRC trailer field. -/
def crc32 (bytes : List Nat) : Nat :=
  (bytes.foldl (fun c b => crc32Byte ((c ^^^ b % 256) % 2 ^ 32) 8) 0xFFFFFFFF)
    ^^^ 0xFFFFFFFF

/-- Little-endian 2-byte encoding. -/
def le16 (v : Nat) : List Nat := [v % 256, v / 256 % 256]

/-- Little-endian 4-byte encoding. -/
def le32 (v : Nat) : List Nat :=
  [v % 256, v / 256 % 256, v / 65536 % 256, v / 16777216 % 256]

/-- Value of up to 8 bits taken LSB-first (first list entry is bit 0). -/
def byteOfBits (bs : List Bool) : Nat :=
  bs.foldr (fun b acc => (if b then 1 else 0) + 2 * acc) 0

/-- Pack a bit sequence into bytes, LSB-first within each byte, zero
padding in the final byte — the DEFLATE bit packing of §4.1. -/
def packBits : List Bool → List Nat
  | [] => []
  | b0 :: b1 :: b2 :: b3 :: b4 :: b5 :: b6 :: b7 :: rest =>
    byteOfBits [b0, b1, b2, b3, b4, b5, b6, b7] :: packBits rest
  | bs => [byteOfBits bs]

/-- Modelled from the spec, §4.5: a minimal GZIP member header — magic
0x1f 0x8b, CM = 8, FLG = 0, MTIME = 0, XFL = 0, OS = 3 (unix). -/
def gzHeader : List Nat := [0x1f, 0x8b, 8, 0, 0, 0, 0, 0, 0, 3]

/-- Modelled from the spec, §4.4 (BTYPE = 1 fixed table) and RFC 1951:
the bit stream of a single final fixed-Huffman block holding only
literals below 144 — BFINAL = 1, BTYPE = 01, each literal `b` emitted as
the 8-bit code `0x30 + b` MSB first, then the 7-bit end-of-block code. -/
def fixedLitBits (X : List Nat) : List Bool :=
  [true, true, false] ++
  (X.map (fun b => gz_pathBits 8 (0x30 + b))).flatten ++
  List.replicate 7 false

/-- Modelled from the spec, §4.4/§4.5 and RFC 1952: a valid single-member
GZIP encoding of a payload `X` of literals below 144, using one final
fixed-Huffman block, with correct CRC32 and ISIZE trailer. -/
def mkFixedGzip (X : List Nat) : List Nat :=
  gzHeader ++ packBits (fixedLitBits X) ++
  le32 (crc32 X) ++ le32 (X.length % 2 ^ 32)

/-- Modelled from the spec, §4.4 (BTYPE = 0 stored) and RFC 1952: a valid
single-member GZIP encoding of payload `X` (shorter than 65536 bytes) as
one final stored block — the byte 0x01 (BFINAL = 1, BTYPE = 00, padding),
LEN and NLEN little-endian with NLEN the ones-complement of LEN, the raw
bytes, then the CRC32/ISIZE trailer. -/
def mkStoredGzip (X : List Nat) : List Nat :=
  gzHeader ++ [1] ++ le16 (X.length % 65536) ++
  le16 (65535 - X.length % 65536) ++ X ++
  le32 (crc32 X) ++ le32 (X.length % 2 ^ 32)

/-- An invalid DEFLATE stream: one final fixed-Huffman block holding the
literal 65, then the length code 257 (length 3) and distance code 1
(distance 2) — a back-reference reaching 2 bytes back with only 1 byte
emitted — then end-of-block. -/
def overDistBits : List Bool :=
  [true, true, false] ++ gz_pathBits 8 (0x30 + 65) ++
  gz_pathBits 7 1 ++ gz_pathBits 5 1 ++ List.replicate 7 false

/-- A GZIP member whose DEFLATE stream is `overDistBits` and whose ISIZE
field is 4 (the CRC field, never inspected by the decoder, is 0): its
first back-reference has distance 2 with only 1 byte emitted, which a
conforming decoder must reject. -/
def overDistGzip : List Nat :=
  gzHeader ++ packBits overDistBits ++ le32 0 ++ le32 4

/-- The S1 test vector of the spec (§8): a valid GZIP member with empty
payload. -/
def s1Bytes : List Nat :=
  [0x1f, 0x8b, 0x08, 0x00, 0x00, 0x00, 0x00, 0x00, 0x00, 0x03,
   0x03, 0x00, 0x00, 0x00, 0x00, 0x00, 0x00, 0x00, 0x00, 0x00]

/-- A GZIP member whose DEFLATE stream decodes to the single byte 65 but
whose ISIZE trailer field claims 2 bytes. -/
def isizeLieGzip : List Nat :=
  gzHeader ++ packBits (fixedLitBits [65]) ++ le32 (crc32 [65]) ++ le32 2

/-- Bit `k` of the bit stream carried by a byte buffer, per §4.1 of the
spec: bits are taken LSB-first within each byte, bytes in ascending
order; past the end the reader yields 0. -/
def streamBit (bytes : List Nat) (k : Nat) : Nat :=
  if k < 8 * bytes.length then (bytes.getD (k / 8) 0 >>> (k % 8)) &&& 1 else 0

/-- The value of bits `k, k+1, ..., k+n-1` of the stream, the first one
in bit position 0 of the result. -/
def bitsVal (bytes : List Nat) : Nat → Nat → Nat
  | _, 0 => 0
  | k, n + 1 => streamBit bytes k + 2 * bitsVal bytes (k + 1) n

/-- `Represents s bytes k`: the reader state `s` is the state of the bit
cursor over `bytes` after `k` bits have been consumed (as gzdec
initializes it: first byte preloaded, mask 1). Either some of the stream
remains — the mask singles out bit `k % 8` of the loaded byte `k / 8` —
or the cursor has passed the last byte and the exhausted flag is set. -/
def Represents (s : Bstream) (bytes : List Nat) (k : Nat) : Prop :=
  s.src = bytes ∧
  ((k < 8 * bytes.length ∧ s.endf = false ∧ s.mask = 2 ^ (k % 8) ∧
    s.buf = bytes.getD (k / 8) 0 ∧ s.pos = k / 8 + 1) ∨
   (8 * bytes.length ≤ k ∧ s.endf = true))

/-- RFC 1951 §3.2.2 `bl_count`: the number of symbols with code length
`b`, with `bl_count[0]` taken as 0. -/
def rfcBlCount (cl : List Nat) (b : Nat) : Nat :=
  if b = 0 then 0 else cl.count b

/-- RFC 1951 §3.2.2 `next_code`: `next_code[1] = 0` and
`next_code[b] = (next_code[b-1] + bl_count[b-1]) << 1`. -/
def rfcNextCode (cl : List Nat) : Nat → Nat
  | 0 => 0
  | b + 1 => (rfcNextCode cl b + rfcBlCount cl b) * 2

/-- The canonical code of symbol `i`: the starting code of its length
plus the number of earlier symbols with the same length (codes of equal
length are assigned in ascending symbol order). -/
def rfcCode (cl : List Nat) (i : Nat) : Nat :=
  rfcNextCode cl (cl.getD i 0) + (cl.take i).count (cl.getD i 0)

/-- The canonical codeword of symbol `i` read most-significant bit first
over `cl[i]` bits. -/
def canonPath (cl : List Nat) (i : Nat) : List Bool :=
  gz_pathBits (cl.getD i 0) (rfcCode cl i)

/-- The code stored at the node reached from `t` along a bit path (`none`
if the path runs into a missing node). -/
def nodeCodeAt : Huffn → List Bool → Option Int
  | .nil, _ => none
  | .node c _ _, [] => some c
  | .node _ z o, b :: p => nodeCodeAt (if b then o else z) p

/-! ### Proof scaffolding for the tree builder

Reference computations that the range-based loops of `gz_buildht` are
proved equal to. -/

/-- Expand the `(end, blen)` ranges back into a per-symbol length list;
`prev` is the end index of the preceding range (-1 initially). -/
def runsExpand : List (Nat × Nat) → Int → List Nat
  | [], _ => []
  | (e, b) :: rs, prev => List.replicate ((e : Int) - prev).toNat b ++ runsExpand rs e

/-- Per-symbol form of the code-assignment loop: walk the length list,
handing each nonzero length the current `nxtcode` entry of its length and
incrementing it. -/
def assignList : List Nat → List Nat → List (Nat × Nat)
  | [], _ => []
  | b :: bs, nxt =>
    if b = 0 then (0, 0) :: assignList bs nxt
    else (b, nxt.getD b 0) :: assignList bs (nxt.set b (nxt.getD b 0 + 1))

/-- The `nxtcode` state after a per-symbol assignment pass. -/
def assignNxt : List Nat → List Nat → List Nat
  | [], nxt => nxt
  | b :: bs, nxt =>
    if b = 0 then assignNxt bs nxt
    else assignNxt bs (nxt.set b (nxt.getD b 0 + 1))

/-- The running `code` accumulator of the `nxtcode` loop: `codeCFrom blc b`
is its value after the iteration for bit length `b`. -/
def codeCFrom (blc : List Nat) : Nat → Nat
  | 0 => 0
  | b + 1 => (codeCFrom blc b + blc.getD b 0) * 2

/-! ## Theorems -/

/-! ### The bit-stream reader -/

theorem gz_nextbit_le (s : Bstream) : (gz_nextbit s).1 ≤ 1 := by
  unfold gz_nextbit
  repeat' split
  all_goals simp [apply_ite]

theorem gz_readbits_lt (n : Nat) (s : Bstream) : (gz_readbits s n).1 < 2 ^ n := by
  induction n generalizing s with
  | zero => simp [gz_readbits]
  | succ m ih =>
    have h1 := gz_nextbit_le s
    have h2 := ih (gz_nextbit s).2
    simp only [gz_readbits]
    have : 2 ^ (m + 1) = 2 ^ m + 2 ^ m := by ring
    omega

theorem mask_bit_eq (b j : Nat) :
    (if b &&& 2 ^ j ≠ 0 then 1 else 0) = (b >>> j) &&& 1 := by
  rw [Nat.and_two_pow, Nat.and_one_is_mod, Nat.shiftRight_eq_div_pow]
  rcases h : b.testBit j with _ | _ <;>
    rw [Nat.testBit_to_div_mod] at h <;> simp at h <;> simp [h]

theorem gz_nextbit_repr (s : Bstream) (bytes : List Nat) (k : Nat)
    (h : Represents s bytes k) :
    (gz_nextbit s).1 = streamBit bytes k ∧
    Represents (gz_nextbit s).2 bytes (k + 1) := by
  obtain ⟨src, pos, buf, mask, endf⟩ := s
  obtain ⟨hsrc, hcase⟩ := h
  dsimp only at hsrc hcase
  subst hsrc
  rcases hcase with ⟨hk, he, hm, hb, hp⟩ | ⟨hk, he⟩
  · subst he hm hb hp
    have h8 : k % 8 < 8 := Nat.mod_lt _ (by norm_num)
    have hbit :
        (if src.getD (k / 8) 0 &&& 2 ^ (k % 8) ≠ 0 then 1 else 0) =
          streamBit src k := by
      rw [mask_bit_eq, streamBit, if_pos hk]
    have hmask : (2 : Nat) ^ (k % 8) <<< 1 = 2 ^ (k % 8 + 1) := by
      rw [Nat.shiftLeft_eq]; ring
    by_cases h7 : k % 8 = 7
    · have hwrap : ((2 : Nat) ^ (k % 8) <<< 1) % 256 = 0 := by
        rw [hmask, h7]; norm_num
      by_cases hpos : k / 8 + 1 < src.length
      · have hk1 : k + 1 < 8 * src.length := by omega
        have hstep :
            gz_nextbit ⟨src, k / 8 + 1, src.getD (k / 8) 0, 2 ^ (k % 8), false⟩ =
              (streamBit src k,
               ⟨src, k / 8 + 2, src.getD (k / 8 + 1) 0, 1, false⟩) := by
          rw [gz_nextbit]
          dsimp only
          simp only [Bool.false_eq_true, if_false, hwrap, if_pos rfl, hbit]
          simp [hpos, List.getD]
        rw [hstep]
        refine ⟨rfl, rfl, Or.inl ⟨hk1, rfl, ?_, ?_, ?_⟩⟩
        · have : (k + 1) % 8 = 0 := by omega
          simp [this]
        · have : (k + 1) / 8 = k / 8 + 1 := by omega
          rw [this]
        · dsimp only
          omega
      · have hk1 : 8 * src.length ≤ k + 1 := by omega
        have hstep :
            gz_nextbit ⟨src, k / 8 + 1, src.getD (k / 8) 0, 2 ^ (k % 8), false⟩ =
              (streamBit src k,
               ⟨src, k / 8 + 1, src.getD (k / 8) 0, 1, true⟩) := by
          rw [gz_nextbit]
          dsimp only
          simp only [Bool.false_eq_true, if_false, hwrap, if_pos rfl, hbit]
          simp [hpos]
        rw [hstep]
        exact ⟨rfl, rfl, Or.inr ⟨hk1, rfl⟩⟩
    · have hlt : 2 ^ (k % 8 + 1) < 256 := by
        calc 2 ^ (k % 8 + 1) ≤ 2 ^ 7 := Nat.pow_le_pow_right (by norm_num) (by omega)
        _ < 256 := by norm_num
      have hwrap : ((2 : Nat) ^ (k % 8) <<< 1) % 256 = 2 ^ (k % 8 + 1) := by
        rw [hmask]; exact Nat.mod_eq_of_lt hlt
      have hne : ¬ (2 : Nat) ^ (k % 8 + 1) = 0 := by positivity
      have hk1 : k + 1 < 8 * src.length := by omega
      have hstep :
          gz_nextbit ⟨src, k / 8 + 1, src.getD (k / 8) 0, 2 ^ (k % 8), false⟩ =
            (streamBit src k,
             ⟨src, k / 8 + 1, src.getD (k / 8) 0, 2 ^ (k % 8 + 1), false⟩) := by
        rw [gz_nextbit]
        dsimp only
        simp only [Bool.false_eq_true, if_false, hwrap, if_neg hne, hbit]
      rw [hstep]
      refine ⟨rfl, rfl, Or.inl ⟨hk1, rfl, ?_, ?_, ?_⟩⟩
      · have : (k + 1) % 8 = k % 8 + 1 := by omega
        simp [this]
      · have : (k + 1) / 8 = k / 8 := by omega
        rw [this]
      · dsimp only
        omega
  · subst he
    have hsb : streamBit src k = 0 := by
      rw [streamBit, if_neg (by omega)]
    have hstep :
        gz_nextbit ⟨src, pos, buf, mask, true⟩ =
          (0, ⟨src, pos, buf, mask, true⟩) := by
      rw [gz_nextbit]; simp
    rw [hstep, hsb]
    exact ⟨rfl, rfl, Or.inr ⟨by omega, rfl⟩⟩

/-- C7: for every byte buffer and every `n`, `gz_readbits` returns an
unsigned integer in `[0, 2^n)` in which the first bit consumed is bit 0
of the result and each later bit occupies the next higher position, with
bits taken LSB-first within each byte and bytes consumed in ascending
order (that is the content of `streamBit`/`bitsVal` and of the cursor
invariant `Represents`); and the resulting state represents the stream
advanced by `n` bits, so subsequent reads return the following bits in
stream order. -/
theorem gz_readbits_spec (bytes : List Nat) (n : Nat) :
    ∀ (k : Nat) (s : Bstream), Represents s bytes k →
      (gz_readbits s n).1 = bitsVal bytes k n ∧
      (gz_readbits s n).1 < 2 ^ n ∧
      Represents (gz_readbits s n).2 bytes (k + n) := by
  induction n with
  | zero =>
    intro k s h
    exact ⟨rfl, by norm_num [gz_readbits], h⟩
  | succ m ih =>
    intro k s h
    obtain ⟨hbit, hrep⟩ := gz_nextbit_repr s bytes k h
    obtain ⟨ihv, ihlt, ihrep⟩ := ih (k + 1) (gz_nextbit s).2 hrep
    have hb := gz_nextbit_le s
    constructor
    · simp only [gz_readbits, bitsVal, ihv, hbit]
    constructor
    · simp only [gz_readbits]
      have : 2 ^ (m + 1) = 2 ^ m + 2 ^ m := by ring
      omega
    · simp only [gz_readbits]
      have : k + (m + 1) = k + 1 + m := by omega
      rw [this]
      exact ihrep

theorem gz_readbits_spec_witness :
    Represents ⟨[0xAB, 0xCD], 1, 0xAB, 1, false⟩ [0xAB, 0xCD] 0 ∧
    ((gz_readbits ⟨[0xAB, 0xCD], 1, 0xAB, 1, false⟩ 12).1 =
        bitsVal [0xAB, 0xCD] 0 12 ∧
      (gz_readbits ⟨[0xAB, 0xCD], 1, 0xAB, 1, false⟩ 12).1 < 2 ^ 12 ∧
      Represents (gz_readbits ⟨[0xAB, 0xCD], 1, 0xAB, 1, false⟩ 12).2
        [0xAB, 0xCD] 12) :=
  ⟨by unfold Represents; refine ⟨rfl, Or.inl ?_⟩; norm_num,
   gz_readbits_spec [0xAB, 0xCD] 12 0 ⟨[0xAB, 0xCD], 1, 0xAB, 1, false⟩
     (by unfold Represents; refine ⟨rfl, Or.inl ?_⟩; norm_num)⟩

/-! ### Error handling in the symbol loops -/

/-- C9: in the code-length vector reader `gz_gethufft` (used for both
vectors of every dynamic block), a first decoded CL symbol (position 0)
of 16 — repeat previous — makes the reader fail, which gzdec turns into
GZ_INVFILE. -/
theorem gz_gethufft_sym16_first (s : Bstream) (count maxcount : Nat)
    (htclen : Huffn) (htmax : Nat) (h16 : (gz_huffdec htclen s).1 = 16)
    (hc : 0 < count) :
    gz_gethufft s count maxcount htclen htmax = none := by
  unfold gz_gethufft
  rw [gz_gethufftGo]
  rw [dif_pos hc]
  simp [h16]

theorem gz_gethufft_sym16_first_witness :
    (gz_huffdec (Huffn.node (-1) (Huffn.node 16 .nil .nil) .nil)
        ⟨[0], 1, 0, 1, false⟩).1 = 16 ∧
    gz_gethufft ⟨[0], 1, 0, 1, false⟩ 1 19
      (Huffn.node (-1) (Huffn.node 16 .nil .nil) .nil) 37 = none :=
  ⟨by decide,
   gz_gethufft_sym16_first ⟨[0], 1, 0, 1, false⟩ 1 19
     (Huffn.node (-1) (Huffn.node 16 .nil .nil) .nil) 37 (by decide)
     (by norm_num)⟩

/-- C8: in the body loop of gzdec, whenever the symbol decoded from the
distance tree is 30 or 31 (the reserved distance codes), `gz_getdist`
yields -1 and the decode fails with GZ_INVFILE. -/
theorem gz_body_reserved_dist (below : Nat → Nat) (fuel : Nat)
    (htll htdist : Huffn) (s : Bstream) (out : List Nat) (outsize : Nat)
    (sym : Int) (s1 : Bstream) (len : Int) (s2 : Bstream) (d : Int)
    (s3 : Bstream)
    (h1 : gz_huffdec htll s = (sym, s1)) (h2 : 256 < sym) (h3 : sym < 288)
    (h4 : gz_getlen sym s1 = (len, s2)) (h5 : gz_huffdec htdist s2 = (d, s3))
    (h6 : d = 30 ∨ d = 31) :
    gz_body below (fuel + 1) htll htdist s out outsize =
      some (some .GZ_INVFILE, s3, out) := by
  have hd : gz_getdist d s3 = (-1, s3) := by
    rcases h6 with h | h <;> subst h <;> rw [gz_getdist] <;> norm_num
  rw [gz_body]
  simp only [h1, h4, h5, hd]
  rw [if_neg (show ¬sym = 256 by omega)]
  rw [if_neg (show ¬(sym < 0 ∨ sym > 288) by omega)]
  rw [if_neg (show ¬sym ≤ 255 by omega)]
  rw [if_pos (show sym < 288 from h3)]
  rw [if_pos (Or.inl (show (-1 : Int) < 0 by norm_num))]

theorem gz_body_reserved_dist_witness :
    gz_body (fun _ => 0) 1 (Huffn.node (-1) (Huffn.node 257 .nil .nil) .nil)
        (Huffn.node (-1) (Huffn.node 30 .nil .nil) .nil)
        ⟨[0], 1, 0, 1, false⟩ [] 0 =
      some (some .GZ_INVFILE, ⟨[0], 1, 0, 4, false⟩, []) :=
  gz_body_reserved_dist (fun _ => 0) 0
    (Huffn.node (-1) (Huffn.node 257 .nil .nil) .nil)
    (Huffn.node (-1) (Huffn.node 30 .nil .nil) .nil)
    ⟨[0], 1, 0, 1, false⟩ [] 0 257 ⟨[0], 1, 0, 2, false⟩ 3
    ⟨[0], 1, 0, 2, false⟩ 30 ⟨[0], 1, 0, 4, false⟩
    (by decide) (by decide) (by decide) (by decide) (by decide) (Or.inl rfl)

/-! ### Concrete decodes -/

set_option maxRecDepth 1000000 in
/-- C1: counter-evidence for the back-reference bound. `overDistGzip`
contains a back-reference of distance 2 with only 1 byte emitted, yet
gzdec returns GZ_OK rather than GZ_INVFILE, and the bytes it copies come
from below the output buffer: the result depends on the ambient byte
`below 0` (7 in the first run, 9 in the second). The bound check in the
source compares `outp` instead of `backp` against `out` and so never
fires. -/
theorem gzdec_overdist_reads_below :
    gzdec (fun _ => 7) 99 overDistGzip 4 = some (.GZ_OK, [65, 7, 65, 7]) ∧
    gzdec (fun _ => 9) 99 overDistGzip 4 = some (.GZ_OK, [65, 9, 65, 9]) := by
  constructor <;> decide

set_option maxRecDepth 1000000 in
/-- C2: `mkStoredGzip [65]` is a valid GZIP member holding one stored
block (LEN = 1, NLEN = 0xFEFF, correct CRC and ISIZE), yet gzdec returns
GZ_INVFILE without emitting anything: the source reads LEN and NLEN as
8-bit fields without byte-aligning first, and compares LEN against the
32-bit complement of NLEN, which can never be equal. -/
theorem gzdec_stored_block_rejected :
    gzdec (fun _ => 0) 99 (mkStoredGzip [65]) 1 = some (.GZ_INVFILE, []) := by
  decide

set_option maxRecDepth 1000000 in
/-- C3: the spec's S1 vector (a valid GZIP member with empty payload) is
rejected with GZ_INVFILE for any output capacity, because gzdec treats
the 0 returned by gzdecsize for ISIZE = 0 as an invalid file. -/
theorem gzdec_empty_payload_rejected :
    gzdec (fun _ => 0) 99 s1Bytes 0 = some (.GZ_INVFILE, []) ∧
    gzdec (fun _ => 0) 99 s1Bytes 64 = some (.GZ_INVFILE, []) := by
  constructor <;> decide

set_option maxRecDepth 1000000 in
/-- C4, counterexample: `isizeLieGzip` stores ISIZE = 2 (the value
gzdecsize reports) but its DEFLATE stream produces a single byte; gzdec
returns GZ_OK without comparing the produced count against ISIZE. -/
theorem gzdec_isize_not_checked :
    gzdec (fun _ => 0) 99 isizeLieGzip 2 = some (.GZ_OK, [65]) ∧
    gzdecsize isizeLieGzip = 2 ∧
    ([65] : List Nat).length ≠ gzdecsize isizeLieGzip := by
  refine ⟨by decide, by decide, by decide⟩

set_option maxRecDepth 1000000 in
/-- C6, counterexample: for the valid GZIP member `mkFixedGzip [65]` of
the payload `[65]` (single fixed-Huffman block, correct CRC32 and ISIZE),
the proper prefix obtained by dropping its last byte does not fail: the
whole DEFLATE stream still lies inside the prefix, the prefix's last four
bytes read as ISIZE 467, and gzdec returns GZ_OK — not GZ_INVFILE. -/
theorem gzdec_prefix_can_succeed :
    ((mkFixedGzip [65]).take 20).length < (mkFixedGzip [65]).length ∧
    gzdec (fun _ => 0) 99 (mkFixedGzip [65]) 1 = some (.GZ_OK, [65]) ∧
    gzdec (fun _ => 0) 99 ((mkFixedGzip [65]).take 20) 467 =
      some (.GZ_OK, [65]) := by
  refine ⟨by decide, by decide, by decide⟩

/-- C6, amended: a proper prefix shorter than the 18-byte minimum frame
always fails with GZ_INVFILE (longer prefixes may return GZ_OK or
GZ_NOSPACE, as `gzdec_prefix_can_succeed` shows, because the trailer is
never validated). -/
theorem gzdec_short_prefix_invfile (P : List Nat) (hP : P.length < 18)
    (below : Nat → Nat) (fuel outsize : Nat) :
    gzdec below fuel P outsize = some (.GZ_INVFILE, []) := by
  rw [gzdec, if_pos hP]

theorem gzdec_short_prefix_invfile_witness :
    ([0x1f, 0x8b, 8] : List Nat).length < 18 ∧
    gzdec (fun _ => 0) 5 [0x1f, 0x8b, 8] 32 = some (.GZ_INVFILE, []) :=
  ⟨by decide, gzdec_short_prefix_invfile [0x1f, 0x8b, 8] (by decide)
    (fun _ => 0) 5 32⟩

/-! ### Output bounds and the NOSPACE result -/

theorem gz_emit_length (out : List Nat) (outsize b : Nat) (out1 : List Nat)
    (h : gz_emit out outsize b = some out1) :
    out1.length = out.length + 1 ∧ out.length < outsize := by
  unfold gz_emit at h
  split at h
  · cases h
  · injection h with h
    subst h
    simp
    omega

theorem gz_copyGo_length (below : Nat → Nat) :
    ∀ (len dist : Nat) (out : List Nat) (outsize : Nat) (b : Bool)
      (o1 : List Nat),
      gz_copyGo below len dist out outsize = (b, o1) →
      out.length ≤ outsize → o1.length ≤ outsize := by
  intro len
  induction len with
  | zero =>
    intro dist out outsize b o1 heq hle
    injection heq with h1 h2
    subst h2; exact hle
  | succ n ih =>
    intro dist out outsize b o1 heq hle
    rw [gz_copyGo] at heq
    rcases he : gz_emit out outsize (gz_backByte below out dist) with _ | out2 <;>
      simp only [he] at heq
    · injection heq with h1 h2
      subst h2; exact hle
    · obtain ⟨l1, l2⟩ := gz_emit_length out outsize _ out2 he
      exact ih dist out2 outsize b o1 heq (by omega)

theorem gz_storedGo_length :
    ∀ (n : Nat) (s : Bstream) (out : List Nat) (outsize : Nat) (b : Bool)
      (s1 : Bstream) (o1 : List Nat),
      gz_storedGo n s out outsize = (b, s1, o1) →
      out.length ≤ outsize → o1.length ≤ outsize := by
  intro n
  induction n with
  | zero =>
    intro s out outsize b s1 o1 heq hle
    injection heq with h1 h2
    injection h2 with h2 h3
    subst h3; exact hle
  | succ m ih =>
    intro s out outsize b s1 o1 heq hle
    rw [gz_storedGo] at heq
    rcases he : gz_emit out outsize (gz_readbits s 8).1 with _ | out2 <;>
      simp only [he] at heq
    · injection heq with h1 h2
      injection h2 with h2 h3
      subst h3; exact hle
    · obtain ⟨l1, l2⟩ := gz_emit_length out outsize _ out2 he
      exact ih (gz_readbits s 8).2 out2 outsize b s1 o1 heq (by omega)

set_option maxRecDepth 4000 in
set_option maxHeartbeats 1000000 in
theorem gz_body_length (below : Nat → Nat) :
    ∀ (fuel : Nat) (htll htdist : Huffn) (s : Bstream) (out : List Nat)
      (outsize : Nat) (res : Option GzResult) (s1 : Bstream) (out1 : List Nat),
      gz_body below fuel htll htdist s out outsize = some (res, s1, out1) →
      out.length ≤ outsize → out1.length ≤ outsize := by
  intro fuel
  induction fuel with
  | zero => intro _ _ _ _ _ _ _ _ h _; cases h
  | succ n ih =>
    intro htll htdist s out outsize res s1 out1 h hle
    rw [gz_body] at h
    dsimp only at h
    split at h
    · injection h with h; injection h with _ h; injection h with _ h
      subst h; exact hle
    · split at h
      · injection h with h; injection h with _ h; injection h with _ h
        subst h; exact hle
      · split at h
        · split at h
          · injection h with h; injection h with _ h; injection h with _ h
            subst h; exact hle
          · rename_i out2 he
            obtain ⟨h1, h2⟩ := gz_emit_length out outsize _ out2 he
            exact ih htll htdist _ out2 outsize res s1 out1 h (by omega)
        · split at h
          · split at h
            · injection h with h; injection h with _ h; injection h with _ h
              subst h; exact hle
            · split at h
              · rename_i p out2 hc
                injection h with h; injection h with _ h; injection h with _ h
                subst h
                exact gz_copyGo_length below _ _ out outsize false _ hc hle
              · rename_i p out2 hc
                have hout2 : out2.length ≤ outsize :=
                  gz_copyGo_length below _ _ out outsize true out2 hc hle
                exact ih htll htdist _ out2 outsize res s1 out1 h hout2
          · injection h with h; injection h with _ h; injection h with _ h
            subst h; exact hle

/-- Unfolding equation for the successor case of `gz_blocks`. -/
theorem gz_blocks_succ (below : Nat → Nat) (fuel : Nat) (s : Bstream)
    (out : List Nat) (outsize : Nat) :
    gz_blocks below (fuel + 1) s out outsize =
      gz_blockStep below fuel (gz_blocks below fuel) s out outsize := rfl

theorem gz_storedBlock_length (s2 : Bstream) (out : List Nat)
    (outsize : Nat) (res : Option GzResult) (s5 : Bstream) (out1 : List Nat)
    (h : gz_storedBlock s2 out outsize = (res, s5, out1))
    (hle : out.length ≤ outsize) : out1.length ≤ outsize := by
  unfold gz_storedBlock at h
  dsimp only at h
  generalize (gz_readbits s2 8).1 = b0len at h
  generalize (gz_readbits (gz_readbits s2 8).2 8).2 = s4 at h
  generalize (gz_readbits (gz_readbits s2 8).2 8).1 = b0nlen at h
  split at h
  · injection h with h1 h2; injection h2 with h2 h3; subst h3; exact hle
  · split at h
    · rename_i s6 out2 hst
      injection h with h1 h2; injection h2 with h2 h3; subst h3
      exact gz_storedGo_length _ _ out outsize false s6 _ hst hle
    · rename_i s6 out2 hst
      injection h with h1 h2; injection h2 with h2 h3; subst h3
      exact gz_storedGo_length _ _ out outsize true s6 _ hst hle

theorem gz_storedBlock_res (s2 : Bstream) (out : List Nat) (outsize : Nat)
    (res : Option GzResult) (s5 : Bstream) (out1 : List Nat)
    (h : gz_storedBlock s2 out outsize = (res, s5, out1))
    (r : GzResult) (hr : res = some r) : r = .GZ_INVFILE := by
  unfold gz_storedBlock at h
  dsimp only at h
  generalize (gz_readbits s2 8).1 = b0len at h
  generalize (gz_readbits (gz_readbits s2 8).2 8).2 = s4 at h
  generalize (gz_readbits (gz_readbits s2 8).2 8).1 = b0nlen at h
  split at h
  · simp only [Prod.mk.injEq] at h
    rw [← h.1] at hr
    injection hr with hr
    exact hr.symm
  · split at h
    · simp only [Prod.mk.injEq] at h
      rw [← h.1] at hr
      injection hr with hr
      exact hr.symm
    · simp only [Prod.mk.injEq] at h
      rw [← h.1] at hr
      cases hr

set_option maxRecDepth 4000 in
set_option maxHeartbeats 1000000 in
theorem gz_blocks_length (below : Nat → Nat) :
    ∀ (fuel : Nat) (s : Bstream) (out : List Nat) (outsize : Nat)
      (r : GzResult) (out1 : List Nat),
      gz_blocks below fuel s out outsize = some (r, out1) →
      out.length ≤ outsize → out1.length ≤ outsize := by
  intro fuel
  induction fuel with
  | zero => intro _ _ _ _ _ h _; cases h
  | succ n ih =>
    intro s out outsize r out1 h hle
    rw [gz_blocks_succ] at h
    unfold gz_blockStep at h
    dsimp only at h
    generalize (gz_readbits s 1).1 = islast at h
    generalize (gz_readbits (gz_readbits s 1).2 2).2 = s2 at h
    generalize (gz_readbits (gz_readbits s 1).2 2).1 = btype at h
    split at h
    · rcases hsb : gz_storedBlock s2 out outsize with ⟨_ | rr, s5, out2⟩ <;>
        simp only [hsb] at h
      · have hout2 := gz_storedBlock_length s2 out outsize none s5 out2 hsb hle
        split at h
        · injection h with h; injection h with _ h; subst h; exact hout2
        · exact ih s5 out2 outsize r out1 h hout2
      · have hout2 := gz_storedBlock_length s2 out outsize (some rr) s5 out2 hsb hle
        injection h with h; injection h with _ h; subst h; exact hout2
    · split at h
      · rcases hll : gz_htllFixed with _ | htll <;> simp only [hll] at h
        · injection h with h; injection h with _ h; subst h; exact hle
        · rcases hdd : gz_htdistFixed with _ | htdist <;> simp only [hdd] at h
          · injection h with h; injection h with _ h; subst h; exact hle
          · rcases hb : gz_body below n htll htdist s2 out outsize with
              _ | ⟨_ | rr, s3, out2⟩ <;> simp only [hb] at h
            · cases h
            · have hout2 :=
                gz_body_length below n htll htdist s2 out outsize none s3 out2 hb hle
              split at h
              · injection h with h; injection h with _ h; subst h; exact hout2
              · exact ih s3 out2 outsize r out1 h hout2
            · have hout2 :=
                gz_body_length below n htll htdist s2 out outsize (some rr) s3 out2 hb hle
              injection h with h; injection h with _ h; subst h; exact hout2
      · split at h
        · rcases hdt : gz_dynTrees s2 with _ | ⟨htll, htdist, s4⟩ <;>
            simp only [hdt] at h
          · injection h with h; injection h with _ h; subst h; exact hle
          · rcases hb : gz_body below n htll htdist s4 out outsize with
              _ | ⟨_ | rr, s5, out2⟩ <;> simp only [hb] at h
            · cases h
            · have hout2 :=
                gz_body_length below n htll htdist s4 out outsize none s5 out2 hb hle
              split at h
              · injection h with h; injection h with _ h; subst h; exact hout2
              · exact ih s5 out2 outsize r out1 h hout2
            · have hout2 :=
                gz_body_length below n htll htdist s4 out outsize (some rr) s5 out2 hb hle
              injection h with h; injection h with _ h; subst h; exact hout2
        · injection h with h; injection h with _ h; subst h; exact hle

set_option maxRecDepth 4000 in
set_option maxHeartbeats 1000000 in
theorem gz_body_not_nospace (below : Nat → Nat) :
    ∀ (fuel : Nat) (htll htdist : Huffn) (s : Bstream) (out : List Nat)
      (outsize : Nat) (r : GzResult) (s1 : Bstream) (out1 : List Nat),
      gz_body below fuel htll htdist s out outsize =
        some (some r, s1, out1) → r = .GZ_INVFILE := by
  intro fuel
  induction fuel with
  | zero => intro _ _ _ _ _ _ _ _ h; cases h
  | succ n ih =>
    intro htll htdist s out outsize r s1 out1 h
    rw [gz_body] at h
    dsimp only at h
    split at h
    · injection h with h; injection h with h1 h2; cases h1
    · split at h
      · injection h with h; injection h with h1 h2
        injection h1 with h1; exact h1.symm
      · split at h
        · split at h
          · injection h with h; injection h with h1 h2
            injection h1 with h1; exact h1.symm
          · exact ih htll htdist _ _ outsize r s1 out1 h
        · split at h
          · split at h
            · injection h with h; injection h with h1 h2
              injection h1 with h1; exact h1.symm
            · split at h
              · injection h with h; injection h with h1 h2
                injection h1 with h1; exact h1.symm
              · exact ih htll htdist _ _ outsize r s1 out1 h
          · injection h with h; injection h with h1 h2
            injection h1 with h1; exact h1.symm

set_option maxRecDepth 4000 in
set_option maxHeartbeats 1000000 in
theorem gz_blocks_not_nospace (below : Nat → Nat) :
    ∀ (fuel : Nat) (s : Bstream) (out : List Nat) (outsize : Nat)
      (r : GzResult) (out1 : List Nat),
      gz_blocks below fuel s out outsize = some (r, out1) →
      r ≠ .GZ_NOSPACE := by
  intro fuel
  induction fuel with
  | zero => intro _ _ _ _ _ h; cases h
  | succ n ih =>
    intro s out outsize r out1 h
    rw [gz_blocks_succ] at h
    unfold gz_blockStep at h
    dsimp only at h
    generalize (gz_readbits s 1).1 = islast at h
    generalize (gz_readbits (gz_readbits s 1).2 2).2 = s2 at h
    generalize (gz_readbits (gz_readbits s 1).2 2).1 = btype at h
    split at h
    · rcases hsb : gz_storedBlock s2 out outsize with ⟨_ | rr, s5, out2⟩ <;>
        simp only [hsb] at h
      · split at h
        · injection h with h; injection h with h1 h2; subst h1; simp
        · exact ih s5 out2 outsize r out1 h
      · injection h with h; injection h with h1 h2; subst h1
        rw [gz_storedBlock_res s2 out outsize (some rr) s5 out2 hsb rr rfl]
        simp
    · split at h
      · rcases hll : gz_htllFixed with _ | htll <;> simp only [hll] at h
        · injection h with h; injection h with h1 h2; subst h1; simp
        · rcases hdd : gz_htdistFixed with _ | htdist <;> simp only [hdd] at h
          · injection h with h; injection h with h1 h2; subst h1; simp
          · rcases hb : gz_body below n htll htdist s2 out outsize with
              _ | ⟨_ | rr, s3, out2⟩ <;> simp only [hb] at h
            · cases h
            · split at h
              · injection h with h; injection h with h1 h2; subst h1; simp
              · exact ih s3 out2 outsize r out1 h
            · injection h with h; injection h with h1 h2; subst h1
              rw [gz_body_not_nospace below n htll htdist s2 out outsize rr s3 out2 hb]
              simp
      · split at h
        · rcases hdt : gz_dynTrees s2 with _ | ⟨htll, htdist, s4⟩ <;>
            simp only [hdt] at h
          · injection h with h; injection h with h1 h2; subst h1; simp
          · rcases hb : gz_body below n htll htdist s4 out outsize with
              _ | ⟨_ | rr, s5, out2⟩ <;> simp only [hb] at h
            · cases h
            · split at h
              · injection h with h; injection h with h1 h2; subst h1; simp
              · exact ih s5 out2 outsize r out1 h
            · injection h with h; injection h with h1 h2; subst h1
              rw [gz_body_not_nospace below n htll htdist s4 out outsize rr s5 out2 hb]
              simp
        · injection h with h; injection h with h1 h2; subst h1; simp


/-- C4, amended: on every gzdec outcome the bytes written never exceed
the provided `outsize` (every emission is guarded by the EMIT bound
check); the ISIZE trailer value itself is only used for the up-front
space check and is never compared with the produced count. -/
theorem gzdec_output_le_outsize (below : Nat → Nat) (fuel : Nat)
    (bytes : List Nat) (outsize : Nat) (r : GzResult) (out : List Nat)
    (h : gzdec below fuel bytes outsize = some (r, out)) :
    out.length ≤ outsize := by
  unfold gzdec at h
  dsimp only at h
  split at h
  · injection h with h; injection h with h1 h2; subst h2; simp
  · split at h
    · injection h with h; injection h with h1 h2; subst h2; simp
    · split at h
      · injection h with h; injection h with h1 h2; subst h2; simp
      · generalize gz_readbits ⟨bytes, 1, bytes.getD 0 0, 1, false⟩ 8 = pm0 at h
        generalize gz_readbits pm0.2 8 = pm1 at h
        split at h
        · injection h with h; injection h with h1 h2; subst h2; simp
        · generalize gz_readbits pm1.2 8 = pcm at h
          split at h
          · injection h with h; injection h with h1 h2; subst h2; simp
          · generalize gz_readbits pcm.2 8 = pfl at h
            generalize gz_skipBytes 6 pfl.2 = s5 at h
            generalize (if pfl.1 &&& 4 ≠ 0 then
                gz_skipBytes (gz_readbits s5 16).1 (gz_readbits s5 16).2
              else s5) = s6 at h
            generalize (if pfl.1 &&& 8 ≠ 0 then gz_skipZT fuel s6 else some s6) = o7 at h
            rcases o7 with _ | s7
            · cases h
            · dsimp only at h
              generalize (if pfl.1 &&& 16 ≠ 0 then gz_skipZT fuel s7 else some s7) = o8 at h
              rcases o8 with _ | s8
              · cases h
              · dsimp only at h
                generalize (if pfl.1 &&& 2 ≠ 0 then (gz_readbits s8 16).2 else s8) = s9 at h
                exact gz_blocks_length below fuel s9 [] outsize r out h (by simp)

theorem gzdec_output_le_outsize_witness :
    gzdec (fun _ => 0) 99 s1Bytes 0 = some (.GZ_INVFILE, []) ∧
    ([] : List Nat).length ≤ 0 :=
  ⟨by decide,
   gzdec_output_le_outsize (fun _ => 0) 99 s1Bytes 0 .GZ_INVFILE [] (by decide)⟩

/-- C10: gzdec compares `outsize` against the trailer ISIZE before ever
looking at the magic and method bytes, and GZ_NOSPACE arises only there:
whenever gzdec returns, the result is GZ_NOSPACE exactly when the input
is at least 18 bytes, its ISIZE field (the value gzdecsize reports) is
nonzero, and `outsize` is smaller than that field — regardless of
whether the magic bytes or the CM byte are valid. -/
theorem gzdec_nospace_iff (below : Nat → Nat) (fuel : Nat)
    (bytes : List Nat) (outsize : Nat) (r : GzResult) (out : List Nat)
    (h : gzdec below fuel bytes outsize = some (r, out)) :
    (r = .GZ_NOSPACE ↔
      18 ≤ bytes.length ∧ gzdecsize bytes ≠ 0 ∧
        outsize < gzdecsize bytes) := by
  unfold gzdec at h
  dsimp only at h
  split at h
  · rename_i hlen
    injection h with h; injection h with h1 h2
    subst h1
    constructor
    · intro hx; exact absurd hx (by decide)
    · intro hc; omega
  · rename_i hlen
    split at h
    · rename_i hz
      injection h with h; injection h with h1 h2
      subst h1
      constructor
      · intro hx; exact absurd hx (by decide)
      · intro hc; exact absurd hz hc.2.1
    · rename_i hz
      split at h
      · rename_i hlt
        injection h with h; injection h with h1 h2
        subst h1
        constructor
        · intro _; exact ⟨by omega, hz, hlt⟩
        · intro _; rfl
      · rename_i hlt
        have hr : r ≠ .GZ_NOSPACE := by
          generalize gz_readbits ⟨bytes, 1, bytes.getD 0 0, 1, false⟩ 8 = pm0 at h
          generalize gz_readbits pm0.2 8 = pm1 at h
          split at h
          · injection h with h; injection h with h1 h2; subst h1; decide
          · generalize gz_readbits pm1.2 8 = pcm at h
            split at h
            · injection h with h; injection h with h1 h2; subst h1; decide
            · generalize gz_readbits pcm.2 8 = pfl at h
              generalize gz_skipBytes 6 pfl.2 = s5 at h
              generalize (if pfl.1 &&& 4 ≠ 0 then
                  gz_skipBytes (gz_readbits s5 16).1 (gz_readbits s5 16).2
                else s5) = s6 at h
              generalize (if pfl.1 &&& 8 ≠ 0 then gz_skipZT fuel s6 else some s6) = o7 at h
              rcases o7 with _ | s7
              · cases h
              · dsimp only at h
                generalize (if pfl.1 &&& 16 ≠ 0 then gz_skipZT fuel s7 else some s7) = o8 at h
                rcases o8 with _ | s8
                · cases h
                · dsimp only at h
                  generalize (if pfl.1 &&& 2 ≠ 0 then (gz_readbits s8 16).2 else s8) = s9 at h
                  exact gz_blocks_not_nospace below fuel s9 [] outsize r out h
        constructor
        · intro hx; exact absurd hx hr
        · intro hc; exact absurd hc.2.2 hlt

theorem gzdec_nospace_iff_witness :
    gzdec (fun _ => 0) 1 [0, 0, 0, 0, 0, 0, 0, 0, 0, 0, 0, 0, 0, 0, 0, 0, 1, 0, 0, 0] 0 =
      some (.GZ_NOSPACE, []) ∧
    ((.GZ_NOSPACE : GzResult) = .GZ_NOSPACE ↔
      18 ≤ ([0, 0, 0, 0, 0, 0, 0, 0, 0, 0, 0, 0, 0, 0, 0, 0, 1, 0, 0, 0] : List Nat).length ∧
      gzdecsize [0, 0, 0, 0, 0, 0, 0, 0, 0, 0, 0, 0, 0, 0, 0, 0, 1, 0, 0, 0] ≠ 0 ∧
      0 < gzdecsize [0, 0, 0, 0, 0, 0, 0, 0, 0, 0, 0, 0, 0, 0, 0, 0, 1, 0, 0, 0]) :=
  ⟨by decide,
   gzdec_nospace_iff (fun _ => 0) 1
     [0, 0, 0, 0, 0, 0, 0, 0, 0, 0, 0, 0, 0, 0, 0, 0, 1, 0, 0, 0] 0
     .GZ_NOSPACE [] (by decide)⟩

/-! ### The canonical-Huffman tree builder -/

theorem getD_set_self (l : List Nat) (i v : Nat) (h : i < l.length) :
    (l.set i v).getD i 0 = v := by
  simp [List.getD_eq_getElem?_getD, List.getElem?_set_self h]

theorem getD_set_ne (l : List Nat) (i j v : Nat) (h : i ≠ j) :
    (l.set i v).getD j 0 = l.getD j 0 := by
  simp [List.getD_eq_getElem?_getD, List.getElem?_set_ne h]

theorem gz_torangeGo_expand :
    ∀ (rest : List Nat) (prev i j rmax r : Nat) (rs : List (Nat × Nat)),
      gz_torangeGo prev (i - 1) i j rmax rest = some rs →
      1 ≤ r → r ≤ i →
      runsExpand rs ((i : Int) - 1 - r) = List.replicate r prev ++ rest := by
  intro rest
  induction rest with
  | nil =>
    intro prev i j rmax r rs h h1 h2
    rw [gz_torangeGo] at h
    injection h with h
    subst h
    rw [runsExpand, runsExpand, List.append_nil]
    have hc : ((i - 1 : Nat) : Int) - ((i : Int) - 1 - r) = r := by omega
    rw [hc]
    simp
  | cons c rest ih =>
    intro prev i j rmax r rs h h1 h2
    rw [gz_torangeGo] at h
    split at h
    · rename_i hcp
      subst hcp
      have hstep : gz_torangeGo c ((i + 1) - 1) (i + 1) j rmax rest = some rs := h
      have := ih c (i + 1) j rmax (r + 1) rs hstep (by omega) (by omega)
      have hc : ((i + 1 : Nat) : Int) - 1 - ((r + 1 : Nat) : Int) = (i : Int) - 1 - r := by
        push_cast; ring
      rw [hc] at this
      rw [this, List.replicate_succ']
      simp
    · split at h
      · cases h
      · rename_i hcp hj
        split at h
        · cases h
        · rename_i rs2 hrs2
          injection h with h
          subst h
          have hstep : gz_torangeGo c ((i + 1) - 1) (i + 1) (j + 1) rmax rest = some rs2 := hrs2
          have hrec := ih c (i + 1) (j + 1) rmax 1 rs2 hstep (by omega) (by omega)
          have hc : ((i + 1 : Nat) : Int) - 1 - (1 : Nat) = ((i - 1 : Nat) : Int) := by omega
          rw [hc] at hrec
          rw [runsExpand, hrec]
          have hc2 : ((i - 1 : Nat) : Int) - ((i : Int) - 1 - r) = r := by omega
          rw [hc2]
          simp

theorem gz_torange_expand (c : Nat) (rest : List Nat) (rmax : Nat)
    (rs : List (Nat × Nat))
    (h : gz_torange (c :: rest) rmax = some rs) :
    runsExpand rs (-1) = c :: rest := by
  rw [gz_torange] at h
  split at h
  · cases h
  · have := gz_torangeGo_expand rest c 1 0 rmax 1 rs h (by omega) (by omega)
    simpa using this

theorem foldl_max_ge_init :
    ∀ (rs : List (Nat × Nat)) (a : Nat),
      a ≤ List.foldl (fun m r => max m r.2) a rs := by
  intro rs
  induction rs with
  | nil => intro a; exact le_refl a
  | cons b rs ih =>
    intro a
    exact le_trans (Nat.le_max_left a b.2) (ih (max a b.2))

theorem foldl_max_mem :
    ∀ (rs : List (Nat × Nat)) (a : Nat) (r : Nat × Nat), r ∈ rs →
      r.2 ≤ List.foldl (fun m r => max m r.2) a rs := by
  intro rs
  induction rs with
  | nil => intro a r hr; cases hr
  | cons b rs ih =>
    intro a r hr
    rcases List.mem_cons.mp hr with h | h
    · subst h
      exact le_trans (Nat.le_max_right a r.2) (foldl_max_ge_init rs (max a r.2))
    · exact ih (max a b.2) r h

theorem runsExpand_mem :
    ∀ (rs : List (Nat × Nat)) (p : Int) (x : Nat), x ∈ runsExpand rs p →
      ∃ r, r ∈ rs ∧ r.2 = x := by
  intro rs
  induction rs with
  | nil => intro p x hx; cases hx
  | cons hd rs ih =>
    intro p x hx
    rcases hd with ⟨e, b⟩
    rw [runsExpand] at hx
    rcases List.mem_append.mp hx with h | h
    · exact ⟨(e, b), List.mem_cons_self _ _, (List.eq_of_mem_replicate h).symm⟩
    · obtain ⟨r, hr, hrx⟩ := ih e x h
      exact ⟨r, List.mem_cons_of_mem _ hr, hrx⟩

theorem runsExpand_le_maxblen (rs : List (Nat × Nat)) (p : Int) (x : Nat)
    (hx : x ∈ runsExpand rs p) : x ≤ gz_maxblen rs := by
  obtain ⟨r, hr, hrx⟩ := runsExpand_mem rs p x hx
  rw [← hrx]
  exact foldl_max_mem rs 0 r hr

theorem gz_blcountGo_spec :
    ∀ (rs : List (Nat × Nat)) (p : Int) (acc : List Nat),
      (∀ r ∈ rs, r.2 < acc.length) →
      ∀ b, (gz_blcountGo rs p acc).getD b 0 =
        acc.getD b 0 + (runsExpand rs p).count b := by
  intro rs
  induction rs with
  | nil => intro p acc hlen b; simp [gz_blcountGo, runsExpand]
  | cons hd rs ih =>
    intro p acc hlen b
    rcases hd with ⟨e, bh⟩
    rw [gz_blcountGo, runsExpand]
    have hbh : bh < acc.length := hlen (e, bh) (List.mem_cons_self _ _)
    have hlen2 : ∀ r ∈ rs, r.2 <
        (acc.set bh (acc.getD bh 0 + ((e : Int) - p).toNat)).length := by
      intro r hr
      rw [List.length_set]
      exact hlen r (List.mem_cons_of_mem _ hr)
    rw [ih e _ hlen2 b, List.count_append, List.count_replicate]
    by_cases hb : bh = b
    · subst hb
      rw [getD_set_self _ _ _ hbh]
      simp
      omega
    · rw [getD_set_ne _ _ _ _ hb]
      have : (bh == b) = false := by simp [hb]
      rw [this]
      simp

theorem gz_blcount_spec (rs : List (Nat × Nat)) (maxblen : Nat)
    (hle : ∀ r ∈ rs, r.2 ≤ maxblen) (b : Nat) :
    (gz_blcount rs maxblen).getD b 0 = (runsExpand rs (-1)).count b := by
  rw [gz_blcount, gz_blcountGo_spec rs (-1) _ (by
    intro r hr
    rw [List.length_replicate]
    exact Nat.lt_succ_of_le (hle r hr))]
  have hz : (List.replicate (maxblen + 1) 0).getD b 0 = 0 := by
    simp [List.getD_eq_getElem?_getD, List.getElem?_replicate]
    split <;> rfl
  rw [hz, Nat.zero_add]

theorem gz_nxtcodeGo_spec (blc : List Nat) :
    ∀ (n bits : Nat) (acc : List Nat), 1 ≤ bits → bits + n ≤ acc.length →
      ∀ b, (gz_nxtcodeGo blc n bits (codeCFrom blc (bits - 1)) acc).getD b 0 =
        if bits ≤ b ∧ b < bits + n ∧ blc.getD b 0 ≠ 0 then codeCFrom blc b
        else acc.getD b 0 := by
  intro n
  induction n with
  | zero =>
    intro bits acc hb hlen b
    rw [gz_nxtcodeGo, if_neg (by rintro ⟨h1, h2, h3⟩; omega)]
  | succ n ih =>
    intro bits acc hb hlen b
    obtain ⟨b0, rfl⟩ : ∃ b0, bits = b0 + 1 := ⟨bits - 1, by omega⟩
    rw [gz_nxtcodeGo]
    have hcode : (codeCFrom blc (b0 + 1 - 1) + blc.getD (b0 + 1 - 1) 0) * 2 =
        codeCFrom blc (b0 + 1) := by
      rw [codeCFrom]
      simp
    rw [hcode]
    set acc1 := if blc.getD (b0 + 1) 0 ≠ 0 then
        acc.set (b0 + 1) (codeCFrom blc (b0 + 1)) else acc with hacc1
    have hlen1 : acc1.length = acc.length := by
      rw [hacc1]; split <;> simp
    have hstep : codeCFrom blc (b0 + 1) = codeCFrom blc (b0 + 2 - 1) := by rfl
    rw [hstep]
    rw [ih (b0 + 2) acc1 (by omega) (by omega)]
    by_cases hcase : b0 + 2 ≤ b ∧ b < b0 + 2 + n ∧ blc.getD b 0 ≠ 0
    · rw [if_pos hcase, if_pos (⟨by omega, by omega, hcase.2.2⟩ :
        b0 + 1 ≤ b ∧ b < b0 + 1 + (n + 1) ∧ blc.getD b 0 ≠ 0)]
    · rw [if_neg hcase]
      by_cases hb1 : b = b0 + 1
      · subst hb1
        rw [hacc1]
        by_cases hnz : blc.getD (b0 + 1) 0 ≠ 0
        · rw [if_pos hnz, if_pos ⟨le_refl _, by omega, hnz⟩]
          exact getD_set_self _ _ _ (by omega)
        · rw [if_neg hnz, if_neg (by rintro ⟨h1, h2, h3⟩; exact hnz h3)]
      · rw [if_neg (by rintro ⟨h1, h2, h3⟩; exact hcase ⟨by omega, by omega, h3⟩)]
        rw [hacc1]
        split
        · exact getD_set_ne _ _ _ _ (fun hc => hb1 hc.symm)
        · rfl

theorem gz_nxtcode_spec (blc : List Nat) (maxblen b : Nat)
    (h1 : 1 ≤ b) (h2 : b ≤ maxblen) (h3 : blc.getD b 0 ≠ 0) :
    (gz_nxtcode blc maxblen).getD b 0 = codeCFrom blc b := by
  rw [gz_nxtcode]
  have h := gz_nxtcodeGo_spec blc maxblen 1 (List.replicate (maxblen + 1) 0)
    (by omega) (by simp; omega) b
  rw [if_pos (⟨h1, by omega, h3⟩ :
    1 ≤ b ∧ b < 1 + maxblen ∧ blc.getD b 0 ≠ 0)] at h
  exact h

theorem codeCFrom_eq_rfc (cl : List Nat) (blc : List Nat)
    (hblc : ∀ j, blc.getD j 0 = cl.count j) :
    ∀ b, codeCFrom blc (b + 1) =
      rfcNextCode cl (b + 1) + cl.count 0 * 2 ^ (b + 1) := by
  intro b
  induction b with
  | zero =>
    rw [codeCFrom, rfcNextCode, codeCFrom, rfcNextCode, rfcBlCount, if_pos rfl,
      hblc 0]
    ring
  | succ n ih =>
    rw [codeCFrom, rfcNextCode, ih, hblc (n + 1), rfcBlCount,
      if_neg (Nat.succ_ne_zero n)]
    ring

theorem gz_nxtcodeGo_length (blc : List Nat) :
    ∀ (n bits code : Nat) (acc : List Nat),
      (gz_nxtcodeGo blc n bits code acc).length = acc.length := by
  intro n
  induction n with
  | zero => intro bits code acc; rfl
  | succ m ih =>
    intro bits code acc
    rw [gz_nxtcodeGo, ih]
    split <;> simp

theorem gz_nxtcode_length (blc : List Nat) (maxblen : Nat) :
    (gz_nxtcode blc maxblen).length = maxblen + 1 := by
  rw [gz_nxtcode, gz_nxtcodeGo_length]
  simp

theorem gz_assignRun_spec :
    ∀ (k b : Nat) (nxt : List Nat) (acc : List (Nat × Nat)),
      gz_assignRun k b nxt acc =
        (assignNxt (List.replicate k b) nxt,
         acc ++ assignList (List.replicate k b) nxt) := by
  intro k
  induction k with
  | zero => intro b nxt acc; simp [gz_assignRun, assignNxt, assignList]
  | succ m ih =>
    intro b nxt acc
    rw [List.replicate_succ, gz_assignRun, assignNxt, assignList]
    by_cases hb : b = 0
    · rw [if_pos hb, if_pos hb, if_pos hb, ih]
      simp
    · rw [if_neg hb, if_neg hb, if_neg hb, ih]
      simp

theorem assignList_append :
    ∀ (xs ys : List Nat) (nxt : List Nat),
      assignList (xs ++ ys) nxt =
        assignList xs nxt ++ assignList ys (assignNxt xs nxt) := by
  intro xs
  induction xs with
  | nil => intro ys nxt; simp [assignList, assignNxt]
  | cons x xs ih =>
    intro ys nxt
    rw [List.cons_append, assignList, assignList, assignNxt]
    by_cases hx : x = 0
    · rw [if_pos hx, if_pos hx, if_pos hx, ih]
      simp
    · rw [if_neg hx, if_neg hx, if_neg hx, ih]
      simp

theorem gz_assignGo_spec :
    ∀ (rs : List (Nat × Nat)) (p : Int) (nxt : List Nat)
      (acc : List (Nat × Nat)),
      gz_assignGo rs p nxt acc = acc ++ assignList (runsExpand rs p) nxt := by
  intro rs
  induction rs with
  | nil => intro p nxt acc; simp [gz_assignGo, runsExpand, assignList]
  | cons hd rs ih =>
    intro p nxt acc
    rcases hd with ⟨e, b⟩
    rw [gz_assignGo, runsExpand, gz_assignRun_spec, ih, assignList_append]
    simp

theorem gz_tree_eq_assignList (rs : List (Nat × Nat)) (nxt : List Nat) :
    gz_tree rs nxt = assignList (runsExpand rs (-1)) nxt := by
  rw [gz_tree, gz_assignGo_spec]
  simp

theorem assignList_length :
    ∀ (bs : List Nat) (nxt : List Nat),
      (assignList bs nxt).length = bs.length := by
  intro bs
  induction bs with
  | nil => intro nxt; rfl
  | cons b bs ih =>
    intro nxt
    rw [assignList]
    split <;> simp [ih]

theorem assignList_getD :
    ∀ (bs : List Nat) (nxt : List Nat),
      (∀ x ∈ bs, x < nxt.length) →
      ∀ i, i < bs.length → bs.getD i 0 ≠ 0 →
        (assignList bs nxt).getD i (0, 0) =
          (bs.getD i 0,
           nxt.getD (bs.getD i 0) 0 + (bs.take i).count (bs.getD i 0)) := by
  intro bs
  induction bs with
  | nil => intro nxt hin i hi; simp at hi
  | cons b bs ih =>
    intro nxt hin i hi hne
    rcases i with _ | i
    · rw [assignList, if_neg (by simpa using hne)]
      simp
    · simp only [List.getD_cons_succ] at hne ⊢
      rw [assignList]
      by_cases hb : b = 0
      · rw [if_pos hb]
        simp only [List.getD_cons_succ, List.take_succ_cons, List.count_cons]
        rw [ih nxt (fun x hx => hin x (List.mem_cons_of_mem _ hx)) i
          (by simpa using hi) hne]
        have hbeq : (b == bs.getD i 0) = false :=
          beq_eq_false_iff_ne.mpr (by rw [hb]; exact fun hc => hne hc.symm)
        rw [hbeq]
        simp
      · rw [if_neg hb]
        have hlen2 : ∀ x ∈ bs, x < (nxt.set b (nxt.getD b 0 + 1)).length := by
          intro x hx
          rw [List.length_set]
          exact hin x (List.mem_cons_of_mem _ hx)
        simp only [List.getD_cons_succ, List.take_succ_cons, List.count_cons]
        rw [ih _ hlen2 i (by simpa using hi) hne]
        by_cases hbv : b = bs.getD i 0
        · have hblt : b < nxt.length := hin b (List.mem_cons_self _ _)
          rw [← hbv, getD_set_self _ _ _ hblt]
          simp
          omega
        · rw [getD_set_ne _ _ _ _ hbv]
          have hbeq : (b == bs.getD i 0) = false := beq_eq_false_iff_ne.mpr hbv
          rw [hbeq]
          simp

theorem gz_insert_nil_eq (path : List Bool) (sym hc htmax : Nat) :
    gz_insert .nil path sym hc htmax = none := by
  cases path <;> rfl

theorem gz_insert_leaf_eq (c : Int) (z o : Huffn) (sym hc htmax : Nat) :
    gz_insert (.node c z o) [] sym hc htmax =
      if c = -1 then some (.node (Int.ofNat sym) z o, hc) else none := rfl

theorem gz_insert_cons_eq (c : Int) (z o : Huffn) (bb : Bool)
    (rest : List Bool) (sym hc htmax : Nat) :
    gz_insert (.node c z o) (bb :: rest) sym hc htmax =
      (if bb then
        match o with
        | .nil =>
          if hc ≥ htmax then none
          else
            match gz_insert (.node (-1) .nil .nil) rest sym (hc + 1) htmax with
            | none => none
            | some (o1, hc1) => some (.node c z o1, hc1)
        | .node c2 z2 o2 =>
          match gz_insert (.node c2 z2 o2) rest sym hc htmax with
          | none => none
          | some (o1, hc1) => some (.node c z o1, hc1)
      else
        match z with
        | .nil =>
          if hc ≥ htmax then none
          else
            match gz_insert (.node (-1) .nil .nil) rest sym (hc + 1) htmax with
            | none => none
            | some (z1, hc1) => some (.node c z1 o, hc1)
        | .node c2 z2 o2 =>
          match gz_insert (.node c2 z2 o2) rest sym hc htmax with
          | none => none
          | some (z1, hc1) => some (.node c z1 o, hc1)) := rfl

theorem nodeCodeAt_nil_eq (p : List Bool) : nodeCodeAt .nil p = none := by
  cases p <;> rfl

theorem nodeCodeAt_node_nil_eq (c : Int) (z o : Huffn) :
    nodeCodeAt (.node c z o) [] = some c := rfl

theorem nodeCodeAt_node_cons_eq (c : Int) (z o : Huffn) (b : Bool)
    (p : List Bool) :
    nodeCodeAt (.node c z o) (b :: p) = nodeCodeAt (if b then o else z) p := rfl

theorem gz_insert_sets :
    ∀ (path : List Bool) (t : Huffn) (sym hc htmax : Nat) (t1 : Huffn)
      (hc1 : Nat),
      gz_insert t path sym hc htmax = some (t1, hc1) →
      nodeCodeAt t1 path = some (Int.ofNat sym) := by
  intro path
  induction path with
  | nil =>
    intro t sym hc htmax t1 hc1 h
    rcases t with _ | ⟨c, z, o⟩
    · rw [gz_insert_nil_eq] at h; cases h
    · rw [gz_insert_leaf_eq] at h
      split at h
      · injection h with h; injection h with h1 h2
        subst h1
        rfl
      · cases h
  | cons bb rest ih =>
    intro t sym hc htmax t1 hc1 h
    rcases t with _ | ⟨c, z, o⟩
    · rw [gz_insert_nil_eq] at h; cases h
    · rw [gz_insert_cons_eq] at h
      rcases bb with _ | _
      · rw [if_neg (by simp)] at h
        rcases z with _ | ⟨c2, z2, o2⟩ <;> dsimp only at h
        · split at h
          · cases h
          · split at h
            · cases h
            · rename_i z1 hc2 hins
              injection h with h; injection h with h1 h2
              subst h1
              rw [nodeCodeAt_node_cons_eq, if_neg (by simp)]
              exact ih _ sym (hc + 1) htmax z1 hc2 hins
        · split at h
          · cases h
          · rename_i z1 hc2 hins
            injection h with h; injection h with h1 h2
            subst h1
            rw [nodeCodeAt_node_cons_eq, if_neg (by simp)]
            exact ih _ sym hc htmax z1 hc2 hins
      · rw [if_pos rfl] at h
        rcases o with _ | ⟨c2, z2, o2⟩ <;> dsimp only at h
        · split at h
          · cases h
          · split at h
            · cases h
            · rename_i o1 hc2 hins
              injection h with h; injection h with h1 h2
              subst h1
              rw [nodeCodeAt_node_cons_eq, if_pos rfl]
              exact ih _ sym (hc + 1) htmax o1 hc2 hins
        · split at h
          · cases h
          · rename_i o1 hc2 hins
            injection h with h; injection h with h1 h2
            subst h1
            rw [nodeCodeAt_node_cons_eq, if_pos rfl]
            exact ih _ sym hc htmax o1 hc2 hins

theorem gz_insert_preserves :
    ∀ (path : List Bool) (t : Huffn) (sym hc htmax : Nat) (t1 : Huffn)
      (hc1 : Nat),
      gz_insert t path sym hc htmax = some (t1, hc1) →
      ∀ (q : List Bool) (c : Int), nodeCodeAt t q = some c → 0 ≤ c →
        nodeCodeAt t1 q = some c := by
  intro path
  induction path with
  | nil =>
    intro t sym hc htmax t1 hc1 h q c hq hge
    rcases t with _ | ⟨c0, z, o⟩
    · rw [gz_insert_nil_eq] at h; cases h
    · rw [gz_insert_leaf_eq] at h
      split at h
      · rename_i hc0
        injection h with h; injection h with h1 h2
        subst h1
        rcases q with _ | ⟨b, q⟩
        · rw [nodeCodeAt_node_nil_eq] at hq
          injection hq with hq
          subst hq
          rw [hc0] at hge
          exact absurd hge (by norm_num)
        · rw [nodeCodeAt_node_cons_eq] at hq ⊢
          exact hq
      · cases h
  | cons bb rest ih =>
    intro t sym hc htmax t1 hc1 h q c hq hge
    rcases t with _ | ⟨c0, z, o⟩
    · rw [gz_insert_nil_eq] at h; cases h
    · rw [gz_insert_cons_eq] at h
      rcases bb with _ | _
      · rw [if_neg (by simp)] at h
        rcases z with _ | ⟨c2, z2, o2⟩ <;> dsimp only at h
        · split at h
          · cases h
          · split at h
            · cases h
            · rename_i z1 hc2 hins
              injection h with h; injection h with h1 h2
              subst h1
              rcases q with _ | ⟨b, q⟩
              · rw [nodeCodeAt_node_nil_eq] at hq ⊢; exact hq
              · rcases b with _ | _
                · rw [nodeCodeAt_node_cons_eq, if_neg (by simp)] at hq
                  rw [nodeCodeAt_nil_eq] at hq
                  cases hq
                · rw [nodeCodeAt_node_cons_eq, if_pos rfl] at hq ⊢
                  exact hq
        · split at h
          · cases h
          · rename_i z1 hc2 hins
            injection h with h; injection h with h1 h2
            subst h1
            rcases q with _ | ⟨b, q⟩
            · rw [nodeCodeAt_node_nil_eq] at hq ⊢; exact hq
            · rcases b with _ | _
              · rw [nodeCodeAt_node_cons_eq, if_neg (by simp)] at hq ⊢
                exact ih _ sym hc htmax z1 hc2 hins q c hq hge
              · rw [nodeCodeAt_node_cons_eq, if_pos rfl] at hq ⊢
                exact hq
      · rw [if_pos rfl] at h
        rcases o with _ | ⟨c2, z2, o2⟩ <;> dsimp only at h
        · split at h
          · cases h
          · split at h
            · cases h
            · rename_i o1 hc2 hins
              injection h with h; injection h with h1 h2
              subst h1
              rcases q with _ | ⟨b, q⟩
              · rw [nodeCodeAt_node_nil_eq] at hq ⊢; exact hq
              · rcases b with _ | _
                · rw [nodeCodeAt_node_cons_eq, if_neg (by simp)] at hq ⊢
                  exact hq
                · rw [nodeCodeAt_node_cons_eq, if_pos rfl] at hq
                  rw [nodeCodeAt_nil_eq] at hq
                  cases hq
        · split at h
          · cases h
          · rename_i o1 hc2 hins
            injection h with h; injection h with h1 h2
            subst h1
            rcases q with _ | ⟨b, q⟩
            · rw [nodeCodeAt_node_nil_eq] at hq ⊢; exact hq
            · rcases b with _ | _
              · rw [nodeCodeAt_node_cons_eq, if_neg (by simp)] at hq ⊢
                exact hq
              · rw [nodeCodeAt_node_cons_eq, if_pos rfl] at hq ⊢
                exact ih _ sym hc htmax o1 hc2 hins q c hq hge

theorem gz_torange_expand_ne (cl : List Nat) (hne : cl ≠ []) (rmax : Nat)
    (rs : List (Nat × Nat)) (h : gz_torange cl rmax = some rs) :
    runsExpand rs (-1) = cl := by
  rcases cl with _ | ⟨c, rest⟩
  · exact absurd rfl hne
  · exact gz_torange_expand c rest rmax rs h

theorem gz_insertAll_preserves :
    ∀ (rs : List (Nat × Nat)) (start : Nat) (t : Huffn) (hc htmax : Nat)
      (t1 : Huffn) (hc1 : Nat),
      gz_insertAll rs start t hc htmax = some (t1, hc1) →
      ∀ (q : List Bool) (c : Int), nodeCodeAt t q = some c → 0 ≤ c →
        nodeCodeAt t1 q = some c := by
  intro rs
  induction rs with
  | nil =>
    intro start t hc htmax t1 hc1 h q c hq hge
    rw [gz_insertAll] at h
    injection h with h
    injection h with h1 h2
    subst h1
    exact hq
  | cons hd rest ih =>
    intro start t hc htmax t1 hc1 h q c hq hge
    rcases hd with ⟨blen, code⟩
    rw [gz_insertAll] at h
    split at h
    · rcases hins : gz_insert t (gz_pathBits blen code) start hc htmax with
        _ | ⟨t2, hc2⟩ <;> rw [hins] at h <;> dsimp only at h
      · cases h
      · exact ih (start + 1) t2 hc2 htmax t1 hc1 h q c
          (gz_insert_preserves _ t start hc htmax t2 hc2 hins q c hq hge) hge
    · exact ih (start + 1) t hc htmax t1 hc1 h q c hq hge

theorem gz_insertAll_spec :
    ∀ (rs : List (Nat × Nat)) (start : Nat) (t : Huffn) (hc htmax : Nat)
      (t1 : Huffn) (hc1 : Nat),
      gz_insertAll rs start t hc htmax = some (t1, hc1) →
      ∀ k, k < rs.length → (rs.getD k (0, 0)).1 ≠ 0 →
        nodeCodeAt t1
          (gz_pathBits (rs.getD k (0, 0)).1 (rs.getD k (0, 0)).2) =
          some (Int.ofNat (start + k)) := by
  intro rs
  induction rs with
  | nil =>
    intro start t hc htmax t1 hc1 h k hk
    exact absurd hk (by simp)
  | cons hd rest ih =>
    intro start t hc htmax t1 hc1 h k hk hne
    rcases hd with ⟨blen, code⟩
    rw [gz_insertAll] at h
    rcases k with _ | k
    · simp only [List.getD_cons_zero] at hne ⊢
      rw [if_pos hne] at h
      rcases hins : gz_insert t (gz_pathBits blen code) start hc htmax with
        _ | ⟨t2, hc2⟩ <;> rw [hins] at h <;> dsimp only at h
      · cases h
      · have hset :=
          gz_insert_sets (gz_pathBits blen code) t start hc htmax t2 hc2 hins
        have hkeep := gz_insertAll_preserves rest (start + 1) t2 hc2 htmax
          t1 hc1 h _ _ hset (Int.ofNat_nonneg start)
        rw [Nat.add_zero]
        exact hkeep
    · simp only [List.getD_cons_succ] at hne ⊢
      have hk2 : k < rest.length := by simpa using hk
      have harith : start + 1 + k = start + (k + 1) := by omega
      split at h
      · rcases hins : gz_insert t (gz_pathBits blen code) start hc htmax with
          _ | ⟨t2, hc2⟩ <;> rw [hins] at h <;> dsimp only at h
        · cases h
        · have hrec := ih (start + 1) t2 hc2 htmax t1 hc1 h k hk2 hne
          rw [harith] at hrec
          exact hrec
      · have hrec := ih (start + 1) t hc htmax t1 hc1 h k hk2 hne
        rw [harith] at hrec
        exact hrec

theorem testBit_add_mul_two_pow (a z b k : Nat) (h : k < b) :
    (a + z * 2 ^ b).testBit k = a.testBit k := by
  have h2 : 2 ^ b = 2 ^ (b - k - 1) * 2 * 2 ^ k := by
    rw [show 2 ^ (b - k - 1) * 2 * 2 ^ k = 2 ^ (b - k - 1 + 1 + k) by
      rw [pow_add, pow_add, pow_one]]
    rw [show b - k - 1 + 1 + k = b by omega]
  have h1 : z * 2 ^ b = z * 2 ^ (b - k - 1) * 2 * 2 ^ k := by
    rw [h2]; ring
  rw [Nat.testBit_to_div_mod, Nat.testBit_to_div_mod, h1,
    Nat.add_mul_div_right _ _ (Nat.pos_pow_of_pos k (by norm_num)),
    Nat.add_mul_mod_self_right]

theorem gz_pathBits_add_mul (blen a z : Nat) :
    gz_pathBits blen (a + z * 2 ^ blen) = gz_pathBits blen a := by
  unfold gz_pathBits
  refine List.map_congr_left ?_
  intro k hk
  rw [List.mem_reverse, List.mem_range] at hk
  exact testBit_add_mul_two_pow a z blen k hk

/-- C5: for every code-length vector `cl` on which the tree builder
`gz_buildht` succeeds, every symbol `i` with `cl[i] > 0` is reachable in
the built tree along exactly the canonical Huffman codeword of RFC 1951
§3.2.2: `next_code[1] = 0`, `next_code[b] = (next_code[b-1] +
bl_count[b-1]) << 1` with `bl_count[0]` taken as 0, codes of equal length
assigned in ascending symbol order, read most-significant bit first over
`cl[i]` bits. (The C loop seeds the recurrence with the count of
zero-length symbols, offsetting every internal code by
`count₀ · 2^cl[i]`, but the insertion path uses only the low `cl[i]`
bits, so the built paths are exactly the canonical ones.) -/
theorem gz_buildht_canonical (cl : List Nat) (htmax : Nat) (t : Huffn)
    (h : gz_buildht cl htmax = some t) (i : Nat) (hi : i < cl.length)
    (hpos : 0 < cl.getD i 0) :
    nodeCodeAt t (canonPath cl i) = some (Int.ofNat i) := by
  rw [gz_buildht] at h
  split at h
  · cases h
  rcases htor : gz_torange cl cl.length with _ | rs
  · rw [htor] at h; cases h
  rw [htor] at h
  dsimp only at h
  split at h
  · cases h
  split at h
  · cases h
  rcases hins : gz_insertAll
      (gz_tree rs (gz_nxtcode (gz_blcount rs (gz_maxblen rs)) (gz_maxblen rs)))
      0 (.node (-1) .nil .nil) 1 htmax with _ | ⟨t1, hc1⟩
  · rw [hins] at h; cases h
  rw [hins] at h
  dsimp only at h
  injection h with h
  subst h
  have hne : cl ≠ [] := by
    intro hnil
    rw [hnil] at hi
    exact absurd hi (by simp)
  have hexp : runsExpand rs (-1) = cl :=
    gz_torange_expand_ne cl hne cl.length rs htor
  have hle : ∀ r ∈ rs, r.2 ≤ gz_maxblen rs := by
    intro r hr
    exact foldl_max_mem rs 0 r hr
  have hblcspec : ∀ b,
      (gz_blcount rs (gz_maxblen rs)).getD b 0 = cl.count b := by
    intro b
    rw [gz_blcount_spec rs (gz_maxblen rs) hle b, hexp]
  have hmem : cl.getD i 0 ∈ cl := by
    simp only [List.getD_eq_getElem?_getD, List.getElem?_eq_getElem hi,
      Option.getD_some]
    exact List.getElem_mem hi
  have hcli_le : cl.getD i 0 ≤ gz_maxblen rs := by
    apply runsExpand_le_maxblen rs (-1)
    rw [hexp]
    exact hmem
  have hcount_ne :
      (gz_blcount rs (gz_maxblen rs)).getD (cl.getD i 0) 0 ≠ 0 := by
    rw [hblcspec]
    intro hz
    exact absurd hmem (List.count_eq_zero.mp hz)
  have hnxtval :
      (gz_nxtcode (gz_blcount rs (gz_maxblen rs))
          (gz_maxblen rs)).getD (cl.getD i 0) 0 =
        codeCFrom (gz_blcount rs (gz_maxblen rs)) (cl.getD i 0) :=
    gz_nxtcode_spec _ _ _ hpos hcli_le hcount_ne
  obtain ⟨b0, hb0⟩ : ∃ b0, cl.getD i 0 = b0 + 1 :=
    ⟨cl.getD i 0 - 1, by omega⟩
  have hcodeC : codeCFrom (gz_blcount rs (gz_maxblen rs)) (cl.getD i 0) =
      rfcNextCode cl (cl.getD i 0) + cl.count 0 * 2 ^ (cl.getD i 0) := by
    rw [hb0]
    exact codeCFrom_eq_rfc cl _ hblcspec b0
  have hallin : ∀ x ∈ cl,
      x < (gz_nxtcode (gz_blcount rs (gz_maxblen rs))
        (gz_maxblen rs)).length := by
    intro x hx
    rw [gz_nxtcode_length]
    have hxle : x ≤ gz_maxblen rs := by
      apply runsExpand_le_maxblen rs (-1)
      rw [hexp]
      exact hx
    omega
  have hne0 : cl.getD i 0 ≠ 0 := by omega
  have hgd : (gz_tree rs (gz_nxtcode (gz_blcount rs (gz_maxblen rs))
        (gz_maxblen rs))).getD i (0, 0) =
      (cl.getD i 0,
       (gz_nxtcode (gz_blcount rs (gz_maxblen rs))
           (gz_maxblen rs)).getD (cl.getD i 0) 0 +
         (cl.take i).count (cl.getD i 0)) := by
    rw [gz_tree_eq_assignList, hexp]
    exact assignList_getD cl _ hallin i hi hne0
  have hilen : i < (gz_tree rs (gz_nxtcode (gz_blcount rs (gz_maxblen rs))
      (gz_maxblen rs))).length := by
    rw [gz_tree_eq_assignList, hexp, assignList_length]
    exact hi
  have hne1 : ((gz_tree rs (gz_nxtcode (gz_blcount rs (gz_maxblen rs))
      (gz_maxblen rs))).getD i (0, 0)).1 ≠ 0 := by
    rw [hgd]
    exact hne0
  have hmain := gz_insertAll_spec _ 0 _ 1 htmax _ hc1 hins i hilen hne1
  rw [hgd] at hmain
  dsimp only at hmain
  rw [hnxtval, hcodeC] at hmain
  have hre : rfcNextCode cl (cl.getD i 0) + cl.count 0 * 2 ^ (cl.getD i 0) +
      (cl.take i).count (cl.getD i 0) =
      rfcCode cl i + cl.count 0 * 2 ^ (cl.getD i 0) := by
    rw [rfcCode]
    ring
  rw [hre, gz_pathBits_add_mul, Nat.zero_add] at hmain
  rw [show canonPath cl i = gz_pathBits (cl.getD i 0) (rfcCode cl i) from rfl]
  exact hmain

theorem gz_buildht_canonical_witness :
    nodeCodeAt (.node (-1) (.node 1 .nil .nil) (.node 2 .nil .nil))
      (canonPath [0, 1, 1] 1) = some (Int.ofNat 1) ∧
    nodeCodeAt (.node (-1) (.node 1 .nil .nil) (.node 2 .nil .nil))
      (canonPath [0, 1, 1] 2) = some (Int.ofNat 2) :=
  ⟨gz_buildht_canonical [0, 1, 1] 4 _ rfl 1 (by decide) (by decide),
   gz_buildht_canonical [0, 1, 1] 4 _ rfl 2 (by decide) (by decide)⟩

end Gzdec
